import Mathlib

/-! ObjectCompat: the protocol downgrade registry of Quassel, and the buffer list of
BufferViewConfig.

Shallow embedding of `src/common/objectcompat.h` and `src/common/virtualmetaclass.h`; the
buffer list members of `src/common/bufferviewconfig.cpp` follow the definitions of
`ObjectCompat`.

* A C++ object reached through a `void *` is an `Instance`: the meta type id of the class it
  was constructed as, and its payload.
* The private hash `_objectCompatStrategies` is an association list with at most one pair
  per key (`QHash::insert` replaces the value of a key that is present).
* The function pointer `innerDowngrade` stored in an entry is the instantiation of a template
  over the fallback type `R` and the conversion `F`; it is represented by that pair
  (`Downgrader`) and run by `innerDowngrade`, which reads the registry at call time as the
  C++ code reads the global `objectCompat`.
* `innerDowngrade` calls the next `innerDowngrade` through the registry and so may recurse
  for ever on a cyclic registry: the embedding carries a fuel argument, one unit per call
  of `innerDowngrade`.
-/

namespace ObjectCompat

/-- Meta type ids, the `int` returned by `qMetaTypeId<T>()`. -/
abbrev TypeId := Int

/-- The type `Quassel::Features`, a `QFlags` bit set, as the number holding the bits. -/
abbrev Features := Nat

/-- Modelled from the spec: the enum `Quassel::Feature` is declared in `quassel.h`, which is
not among the sources. The spec calls a feature flag "a bit marking the protocol revision in
which a capability was introduced", and the code writes `Quassel::Feature(0)` for "none". -/
inductive Feature where
  | noFeature : Feature
  | bit (k : Nat) : Feature
deriving DecidableEq

/-- Integer value of a `Quassel::Feature`, as used by `operator&` and `operator!`. -/
def Feature.toFlags : Feature → Features
  | Feature.noFeature => 0
  | Feature.bit k => 2 ^ k

/-- A C++ type as the templates see it: its `qMetaTypeId` and whether
`DEFINE_VIRTUAL_METATYPE` specialises `virtualMetaTypeOf` for it. -/
structure MetaType where
  id : TypeId
  isVirtual : Bool
deriving DecidableEq

/-- The object behind a `const void *`: the meta type id of the class the object was
constructed as, and its contents. -/
structure Instance (α : Type) where
  metaType : TypeId
  data : α
deriving DecidableEq

/-- The member `Type::virtualMetaType() const` of `DEFINE_LEAF_METATYPE`: the final overrider
of the object's own class returns `qMetaTypeId` of that class. -/
def Instance.virtualMetaType {α : Type} (i : Instance α) : TypeId :=
  i.metaType

/-- The template `VirtualMetaClass::virtualMetaTypeOf<T>`: the default returns the id of the
declared type and ignores the instance; the specialisation of `DEFINE_VIRTUAL_METATYPE`
calls the instance's `virtualMetaType()`. -/
def virtualMetaTypeOf {α : Type} (T : MetaType) (i : Instance α) : TypeId :=
  if T.isVirtual then i.virtualMetaType else T.id

/-- The private helper `ObjectCompat::makeInnerVirtualMetaTypeOf<VariantType>`. -/
def makeInnerVirtualMetaTypeOf {α : Type} (T : MetaType) (i : Instance α) : TypeId :=
  virtualMetaTypeOf T i

/-- A `QVariant`: a type id and a copy of the value. -/
structure QVariant (α : Type) where
  userType : TypeId
  data : α
deriving DecidableEq

/-- The constructor `QVariant(int typeId, const void *copy)`: a copy of the pointed-to value
stored under `typeId`. -/
def QVariant.ofCopy {α : Type} (typeId : TypeId) (copy : Instance α) : QVariant α :=
  { userType := typeId, data := copy.data }

/-- The value held by a variant, as `constData()` gives it back: an object of the stored
type. -/
def QVariant.constData {α : Type} (q : QVariant α) : Instance α :=
  { metaType := q.userType, data := q.data }

/-- The instantiation `DowngraderRegistreeFactory<I, R>::create<F>::innerDowngrade`, given by
`qMetaTypeId<R>()` and the conversion `F`. -/
structure Downgrader (α : Type) where
  target : TypeId
  convert : Instance α → α

/-- The struct `ObjectCompatEntry`; a `NULL` downgrade pointer is `none`. -/
structure ObjectCompatEntry (α : Type) where
  virtualMetaTypeOf : Instance α → TypeId
  featureFlag : Feature
  downgrade : Option (Downgrader α)

/-- The member `_objectCompatStrategies`, of type `QHash<int, ObjectCompatEntry>`. -/
abbrev Registry (α : Type) := List (TypeId × ObjectCompatEntry α)

/-- The call `QHash::find`; `none` stands for `end()`. -/
def find {α : Type} : Registry α → TypeId → Option (ObjectCompatEntry α)
  | [], _ => none
  | (k, e) :: rest, t => if k = t then some e else find rest t

/-- The keys stored in the hash, one per pair. -/
def keys {α : Type} (reg : Registry α) : List TypeId :=
  reg.map Prod.fst

/-- The hash without the pairs of key `t`. -/
def remove {α : Type} : Registry α → TypeId → Registry α
  | [], _ => []
  | (k, e) :: rest, t => if k = t then remove rest t else (k, e) :: remove rest t

/-- The call `QHash::insert`: the value of a key that is present is replaced, otherwise a
pair is added. -/
def insert {α : Type} (reg : Registry α) (k : TypeId) (e : ObjectCompatEntry α) : Registry α :=
  (k, e) :: remove reg k

/-- The constructor `ObjectCompat()`: an empty hash. -/
def empty {α : Type} : Registry α := []

/-- The call `create<F>::forVersionsWithout(featureFlag)` of
`DowngraderRegistreeFactory<I, R>`. -/
def forVersionsWithout {α : Type} (reg : Registry α) (I R : MetaType) (F : Instance α → α)
    (featureFlag : Feature) : Registry α :=
  insert reg I.id
    { virtualMetaTypeOf := makeInnerVirtualMetaTypeOf I
      featureFlag := featureFlag
      downgrade := some { target := R.id, convert := F } }

/-- The call `registerVirtualType<ModelType>()`. -/
def registerVirtualType {α : Type} (reg : Registry α) (M : MetaType) : Registry α :=
  insert reg M.id
    { virtualMetaTypeOf := makeInnerVirtualMetaTypeOf M
      featureFlag := Feature.noFeature
      downgrade := none }

/-- The member `flagsNeeded`. -/
def flagsNeeded {α : Type} (reg : Registry α) (typeId : TypeId) : Features :=
  match find reg typeId with
  | none => 0
  | some it => it.featureFlag.toFlags

/-- What a call can end in besides a value: a call through a `NULL` downgrade pointer, or
the fuel of the embedding used up. -/
inductive CompatError where
  | nullDowngrade : CompatError
  | outOfFuel : CompatError
deriving DecidableEq

deriving instance DecidableEq for Except

/-- The test `!s->featureFlag || s->featureFlag & peerVersion`. -/
def peerRecentEnough (featureFlag : Feature) (peerVersion : Features) : Bool :=
  featureFlag.toFlags == 0 || (featureFlag.toFlags &&& peerVersion) != 0

/-- The private `innerDowngrade` of the instantiation `d`. -/
def innerDowngrade {α : Type} (reg : Registry α) :
    Nat → Downgrader α → Features → Instance α → Except CompatError (QVariant α)
  | 0, _, _, _ => Except.error CompatError.outOfFuel
  | fuel + 1, d, peerProtocolVersion, input =>
    let ret : Instance α := { metaType := d.target, data := d.convert input }
    match find reg d.target with
    | none => Except.ok (QVariant.ofCopy d.target ret)
    | some s =>
      if peerRecentEnough s.featureFlag peerProtocolVersion then
        Except.ok (QVariant.ofCopy d.target ret)
      else
        match s.downgrade with
        | none => Except.error CompatError.nullDowngrade
        | some next => innerDowngrade reg fuel next peerProtocolVersion ret

/-- Lines 149 to 154 of `peerCompatibleQVariant`: the flag test on the active entry and the
call of its downgrade. -/
def sendOrDowngrade {α : Type} (reg : Registry α) (fuel : Nat) (peerVersion : Features)
    (metaTypeId : TypeId) (s : ObjectCompatEntry α) (input : Instance α) :
    Except CompatError (QVariant α) :=
  if peerRecentEnough s.featureFlag peerVersion then
    Except.ok (QVariant.ofCopy metaTypeId input)
  else
    match s.downgrade with
    | none => Except.error CompatError.nullDowngrade
    | some d => innerDowngrade reg fuel d peerVersion input

/-- The member `peerCompatibleQVariant`. -/
def peerCompatibleQVariant {α : Type} (reg : Registry α) (fuel : Nat) (peerVersion : Features)
    (metaTypeId : TypeId) (input : Instance α) : Except CompatError (QVariant α) :=
  match find reg metaTypeId with
  | none => Except.ok (QVariant.ofCopy metaTypeId input)
  | some s =>
    let instanceMetaTypeId := s.virtualMetaTypeOf input
    if instanceMetaTypeId ≠ metaTypeId then
      match find reg instanceMetaTypeId with
      | none => Except.ok (QVariant.ofCopy instanceMetaTypeId input)
      | some s2 => sendOrDowngrade reg fuel peerVersion instanceMetaTypeId s2 input
    else
      sendOrDowngrade reg fuel peerVersion metaTypeId s input

/-! ## The calls made through function pointers

The same two functions, returning next to the value the list of calls made through the
function pointers of the entries, in the order they are made. -/

/-- A call through a function pointer of an entry: the resolver of the entry of `declared`,
or a conversion `F` producing a value of type `target`. -/
inductive Call where
  | resolver (declared : TypeId) : Call
  | conversion (target : TypeId) : Call
deriving DecidableEq

/-- The function `innerDowngrade` with the conversions it runs. -/
def innerDowngradeTraced {α : Type} (reg : Registry α) :
    Nat → Downgrader α → Features → Instance α → Except CompatError (QVariant α × List Call)
  | 0, _, _, _ => Except.error CompatError.outOfFuel
  | fuel + 1, d, peerProtocolVersion, input =>
    let ret : Instance α := { metaType := d.target, data := d.convert input }
    match find reg d.target with
    | none => Except.ok (QVariant.ofCopy d.target ret, [Call.conversion d.target])
    | some s =>
      if peerRecentEnough s.featureFlag peerProtocolVersion then
        Except.ok (QVariant.ofCopy d.target ret, [Call.conversion d.target])
      else
        match s.downgrade with
        | none => Except.error CompatError.nullDowngrade
        | some next =>
          match innerDowngradeTraced reg fuel next peerProtocolVersion ret with
          | Except.error err => Except.error err
          | Except.ok (q, calls) => Except.ok (q, Call.conversion d.target :: calls)

/-- The function `sendOrDowngrade` with the calls it makes. -/
def sendOrDowngradeTraced {α : Type} (reg : Registry α) (fuel : Nat) (peerVersion : Features)
    (metaTypeId : TypeId) (s : ObjectCompatEntry α) (input : Instance α) :
    Except CompatError (QVariant α × List Call) :=
  if peerRecentEnough s.featureFlag peerVersion then
    Except.ok (QVariant.ofCopy metaTypeId input, [])
  else
    match s.downgrade with
    | none => Except.error CompatError.nullDowngrade
    | some d => innerDowngradeTraced reg fuel d peerVersion input

/-- The function `peerCompatibleQVariant` with the calls it makes. -/
def peerCompatibleQVariantTraced {α : Type} (reg : Registry α) (fuel : Nat)
    (peerVersion : Features) (metaTypeId : TypeId) (input : Instance α) :
    Except CompatError (QVariant α × List Call) :=
  match find reg metaTypeId with
  | none => Except.ok (QVariant.ofCopy metaTypeId input, [])
  | some s =>
    let instanceMetaTypeId := s.virtualMetaTypeOf input
    if instanceMetaTypeId ≠ metaTypeId then
      match find reg instanceMetaTypeId with
      | none => Except.ok (QVariant.ofCopy instanceMetaTypeId input, [Call.resolver metaTypeId])
      | some s2 =>
        match sendOrDowngradeTraced reg fuel peerVersion instanceMetaTypeId s2 input with
        | Except.error err => Except.error err
        | Except.ok (q, calls) => Except.ok (q, Call.resolver metaTypeId :: calls)
    else
      match sendOrDowngradeTraced reg fuel peerVersion metaTypeId s input with
      | Except.error err => Except.error err
      | Except.ok (q, calls) => Except.ok (q, Call.resolver metaTypeId :: calls)

/-- Drops the list of calls. -/
def untraced {α : Type} (r : Except CompatError (QVariant α × List Call)) :
    Except CompatError (QVariant α) :=
  match r with
  | Except.error err => Except.error err
  | Except.ok (q, _) => Except.ok q

/-- The number of conversions among the calls. -/
def conversions (calls : List Call) : Nat :=
  (calls.filter (fun c => match c with
    | Call.conversion _ => true
    | Call.resolver _ => false)).length

/-! ## Registries and the properties the claims speak of -/

/-- The registries the public interface can build: the hash and `ObjectCompatEntry` are
private, so every registry is the empty one followed by calls of `forVersionsWithout` and
`registerVirtualType`. -/
inductive Registered {α : Type} : Registry α → Prop where
  | empty : Registered empty
  | forVersionsWithout {reg : Registry α} (I R : MetaType) (F : Instance α → α)
      (featureFlag : Feature) :
      Registered reg → Registered (forVersionsWithout reg I R F featureFlag)
  | registerVirtualType {reg : Registry α} (M : MetaType) :
      Registered reg → Registered (registerVirtualType reg M)

/-- A downgrade link: the entry of `a` holds a downgrade to `b`. -/
def downgradesTo {α : Type} (reg : Registry α) (a b : TypeId) : Prop :=
  ∃ e d, find reg a = some e ∧ e.downgrade = some d ∧ d.target = b

/-- No type reaches itself along one or more downgrade links. -/
def Acyclic {α : Type} (reg : Registry α) : Prop :=
  ∀ t, ¬ Relation.TransGen (downgradesTo reg) t t

/-- The peer flags hold every bit of `flags`. -/
def hasFlags (peerFlags flags : Features) : Prop :=
  flags &&& peerFlags = flags

instance (peerFlags flags : Features) : Decidable (hasFlags peerFlags flags) := by
  unfold hasFlags
  infer_instance

/-- The peer understands values tagged `T`: the type is unregistered, or needs no flag, or
needs a flag the peer has. -/
def peerUnderstands {α : Type} (reg : Registry α) (peerFlags : Features) (T : TypeId) : Prop :=
  find reg T = none ∨ flagsNeeded reg T = 0 ∨
    (flagsNeeded reg T ≠ 0 ∧ hasFlags peerFlags (flagsNeeded reg T))

/-- The value after the conversions of `ds`, applied in order from the left. -/
def applyConversions {α : Type} (v : Instance α) (ds : List (Downgrader α)) : Instance α :=
  ds.foldl (fun x d => { metaType := d.target, data := d.convert x }) v

/-- The type at the end of the links `ds` starting from `T`. -/
def terminalType {α : Type} (T : TypeId) (ds : List (Downgrader α)) : TypeId :=
  ds.foldl (fun _ d => d.target) T

/-- A lineage from `T` along the downgrades `ds`: every type before the last is registered
with a feature bit and the next downgrade of the list, and the last one is unregistered or
registered without a flag. -/
def IsLineage {α : Type} (reg : Registry α) : TypeId → List (Downgrader α) → Prop
  | T, [] => find reg T = none ∨ flagsNeeded reg T = 0
  | T, d :: ds =>
    (∃ e, find reg T = some e ∧ e.featureFlag ≠ Feature.noFeature ∧ e.downgrade = some d) ∧
      IsLineage reg d.target ds

/-! ## Example registries -/

/-- The conversion of the spec's example: halves the numeric field. -/
def halve (i : Instance Nat) : Nat := i.data / 2

/-- Type `V1` of the spec's example. -/
def V1 : MetaType := { id := 1, isVirtual := false }

/-- Type `V2` of the spec's example. -/
def V2 : MetaType := { id := 2, isVirtual := false }

/-- A third version, downgrading to `V2`. -/
def V3 : MetaType := { id := 3, isVirtual := false }

/-- Flag `F2` of the spec's example. -/
def F2 : Feature := Feature.bit 0

/-- A later flag. -/
def F3 : Feature := Feature.bit 1

/-- The registry of the spec's example: `V2` under `F2` downgrades to `V1`. -/
def exampleRegistry : Registry Nat :=
  forVersionsWithout empty V2 V1 halve F2

/-- A chain of two downgrades: `V3` to `V2` to `V1`. -/
def chainRegistry : Registry Nat :=
  forVersionsWithout (forVersionsWithout empty V2 V1 halve F2) V3 V2 halve F3

/-- A virtual base type. -/
def Base : MetaType := { id := 10, isVirtual := true }

/-- A leaf type deriving from `Base`. -/
def Leaf : MetaType := { id := 11, isVirtual := false }

/-- The base registered as a virtual type, the leaf under `F2` downgrading to `V1`. -/
def virtualRegistry : Registry Nat :=
  forVersionsWithout (registerVirtualType empty Base) Leaf V1 halve F2

/-- The virtual base itself under `F2` downgrading to `V1`, the leaf unregistered. -/
def baseDowngradeRegistry : Registry Nat :=
  forVersionsWithout empty Base V1 halve F2

/-- Two registrations closing a cycle: `V2` to `V1`, then `V1` to `V2`. -/
def cyclicRegistry : Registry Nat :=
  forVersionsWithout (forVersionsWithout empty V2 V1 halve F2) V1 V2 halve F3

/-! ## A downgrade step in the words of the specification -/

/-- A downgrade step as the specification words it: one conversion to the older type `R`,
then `adapt` on `(peerFlags, typeIdOf(R), olderValue)`, the older value being an object of
type `R`. -/
def downgradeThenAdapt {α : Type} (reg : Registry α) (fuel : Nat) (d : Downgrader α)
    (peerFlags : Features) (v : Instance α) : Except CompatError (QVariant α) :=
  peerCompatibleQVariant reg fuel peerFlags d.target
    { metaType := d.target, data := d.convert v }

/-- The active type of lines 134 to 143 of `peerCompatibleQVariant`: the declared type when it
is unregistered, otherwise the type its resolver gives for the instance. -/
def activeType {α : Type} (reg : Registry α) (metaTypeId : TypeId) (input : Instance α) : TypeId :=
  match find reg metaTypeId with
  | none => metaTypeId
  | some s => s.virtualMetaTypeOf input

/-- The type `x` is in the lineage of `a`: it is `a` or is reached from `a` along downgrade
links. -/
def inLineage {α : Type} (reg : Registry α) (a x : TypeId) : Prop :=
  x = a ∨ Relation.TransGen (downgradesTo reg) a x

end ObjectCompat

/-! ## BufferViewConfig: the buffer list

Embedding of the buffer list members of `src/common/bufferviewconfig.cpp` (lines 101 to 153).
The member `_buffers` is a `QList<BufferId>`; the operations of `QList` used by the code
follow the Qt documentation. Signals are recorded in the order they are emitted. -/

namespace QList

/-- Insertion at a position counted from the front; a position past the end appends. -/
def insertAt {β : Type} : List β → Nat → β → List β
  | l, 0, x => x :: l
  | [], _ + 1, x => [x]
  | y :: ys, n + 1, x => y :: insertAt ys n x

/-- The call `QList::insert(int i, const T &value)`: if `i <= 0` the value is prepended, if
`i >= size()` it is appended. -/
def insert {β : Type} (l : List β) (i : Int) (value : β) : List β :=
  if i ≤ 0 then value :: l else insertAt l i.toNat value

/-- The call `QList::contains`. -/
def contains {β : Type} [DecidableEq β] (l : List β) (value : β) : Bool :=
  decide (value ∈ l)

/-- The call `QList::indexOf`: the index of the first occurrence, or -1. -/
def indexOf {β : Type} [DecidableEq β] (l : List β) (value : β) : Int :=
  if value ∈ l then Int.ofNat (List.indexOf value l) else -1

/-- The call `QList::removeAt(int i)`: nothing happens when `i` is not a valid index. -/
def removeAt {β : Type} (l : List β) (i : Int) : List β :=
  if 0 ≤ i ∧ i < l.length then l.eraseIdx i.toNat else l

/-- The call `QList::move(int from, int to)`: the item at `src` is taken out and put back at
index `dst`. Both must be valid indices (the call asserts it); `none` otherwise. -/
def move {β : Type} (l : List β) (src dst : Int) : Option (List β) :=
  if 0 ≤ src ∧ src < l.length ∧ 0 ≤ dst ∧ dst < l.length then
    match l.get? src.toNat with
    | none => none
    | some x => some (insertAt (l.eraseIdx src.toNat) dst.toNat x)
  else none

end QList

/-- The id types `BufferId` and `NetworkId` are declared in `types.h`, which is not among the
sources; they wrap an `int` and are compared by it. -/
abbrev BufferId := Int

/-- See `BufferId`. -/
abbrev NetworkId := Int

/-- What the code needs to know of the meta type of `BufferId`: its `qMetaTypeId` and the
default-constructed value that `QVariant::value<BufferId>()` returns for a variant of
another type. Both come from outside the sources and are parameters. -/
structure BufferIdMetaType where
  metaTypeId : ObjectCompat.TypeId
  defaultConstructed : BufferId

/-- The signals of `BufferViewConfig` emitted by the buffer list members. -/
inductive BufferViewConfigSignal where
  | bufferListSet : BufferViewConfigSignal
  | bufferAdded (bufferId : BufferId) (pos : Int) : BufferViewConfigSignal
  | bufferMoved (bufferId : BufferId) (pos : Int) : BufferViewConfigSignal
  | bufferRemoved (bufferId : BufferId) : BufferViewConfigSignal
deriving DecidableEq

/-- The data members of the class `BufferViewConfig`, and the signals emitted so far. -/
structure BufferViewConfig where
  _bufferViewId : Int
  _bufferViewName : String
  _networkId : NetworkId
  _addNewBuffersAutomatically : Bool
  _sortAlphabetically : Bool
  _hideInactiveBuffers : Bool
  _allowedBufferTypes : Int
  _minimumActivity : Int
  _buffers : List BufferId
  emitted : List BufferViewConfigSignal
deriving DecidableEq

namespace BufferViewConfig

/-- The call `qVariantFromValue(bufferId)`. -/
def qVariantFromValue (m : BufferIdMetaType) (bufferId : BufferId) :
    ObjectCompat.QVariant BufferId :=
  { userType := m.metaTypeId, data := bufferId }

/-- The call `buffer.value<BufferId>()`: the held id when the variant holds a `BufferId`, a
default-constructed one otherwise. -/
def value (m : BufferIdMetaType) (buffer : ObjectCompat.QVariant BufferId) : BufferId :=
  if buffer.userType = m.metaTypeId then buffer.data else m.defaultConstructed

/-- The member `initBufferList`. -/
def initBufferList (m : BufferIdMetaType) (cfg : BufferViewConfig) :
    List (ObjectCompat.QVariant BufferId) :=
  cfg._buffers.foldl (fun buffers bufferId => buffers ++ [qVariantFromValue m bufferId]) []

/-- The member `initSetBufferList(const QVariantList &)`. -/
def initSetBufferList (m : BufferIdMetaType) (cfg : BufferViewConfig)
    (buffers : List (ObjectCompat.QVariant BufferId)) : BufferViewConfig :=
  { cfg with
    _buffers := buffers.foldl (fun acc buffer => acc ++ [value m buffer]) []
    emitted := cfg.emitted ++ [BufferViewConfigSignal.bufferListSet] }

/-- The member `initSetBufferList(const QList<BufferId> &)`, the second overload. -/
def initSetBufferListOfIds (cfg : BufferViewConfig) (buffers : List BufferId) :
    BufferViewConfig :=
  { cfg with
    _buffers := buffers.foldl (fun acc bufferId => acc ++ [bufferId]) []
    emitted := cfg.emitted ++ [BufferViewConfigSignal.bufferListSet] }

/-- The member `addBuffer`. -/
def addBuffer (cfg : BufferViewConfig) (bufferId : BufferId) (pos : Int) : BufferViewConfig :=
  if QList.contains cfg._buffers bufferId then cfg
  else
    { cfg with
      _buffers := QList.insert cfg._buffers pos bufferId
      emitted := cfg.emitted ++ [BufferViewConfigSignal.bufferAdded bufferId pos] }

/-- The member `moveBuffer`; `none` when `QList::move` is called out of range. -/
def moveBuffer (cfg : BufferViewConfig) (bufferId : BufferId) (pos : Int) :
    Option BufferViewConfig :=
  if ¬ QList.contains cfg._buffers bufferId then some cfg
  else
    match QList.move cfg._buffers (QList.indexOf cfg._buffers bufferId) pos with
    | none => none
    | some moved =>
      some { cfg with
             _buffers := moved
             emitted := cfg.emitted ++ [BufferViewConfigSignal.bufferMoved bufferId pos] }

/-- The member `removeBuffer`. -/
def removeBuffer (cfg : BufferViewConfig) (bufferId : BufferId) : BufferViewConfig :=
  if ¬ QList.contains cfg._buffers bufferId then cfg
  else
    { cfg with
      _buffers := QList.removeAt cfg._buffers (QList.indexOf cfg._buffers bufferId)
      emitted := cfg.emitted ++ [BufferViewConfigSignal.bufferRemoved bufferId] }

/-- A configuration with the buffers 5, 7, 9 in this order. -/
def sample : BufferViewConfig :=
  { _bufferViewId := 1
    _bufferViewName := "all"
    _networkId := 0
    _addNewBuffersAutomatically := true
    _sortAlphabetically := true
    _hideInactiveBuffers := false
    _allowedBufferTypes := 15
    _minimumActivity := 0
    _buffers := [5, 7, 9]
    emitted := [] }

/-- A meta type for `BufferId` used in the examples. -/
def sampleMetaType : BufferIdMetaType :=
  { metaTypeId := 1024, defaultConstructed := 0 }

end BufferViewConfig

namespace ObjectCompat

/-! ## Lemmas on the hash -/

theorem find_remove_ne {α : Type} (reg : Registry α) (k t : TypeId) (h : t ≠ k) :
    find (remove reg k) t = find reg t := by
  induction reg with
  | nil => rfl
  | cons p rest ih =>
    obtain ⟨k1, e1⟩ := p
    by_cases hk : k1 = k
    · have hne : ¬ k1 = t := fun h2 => h (h2 ▸ hk)
      simp only [remove, find, hk, if_true, ih]
      rw [if_neg (fun h3 => h h3.symm)]
    · by_cases ht : k1 = t
      · subst ht
        simp only [remove, find, hk, if_false, if_true]
      · simp only [remove, find, hk, ht, if_false, ih]

theorem find_remove_self {α : Type} (reg : Registry α) (k : TypeId) :
    find (remove reg k) k = none := by
  induction reg with
  | nil => rfl
  | cons p rest ih =>
    obtain ⟨k1, e1⟩ := p
    by_cases hk : k1 = k
    · simp only [remove, hk, if_true, ih]
    · simp only [remove, find, hk, if_false, ih]

theorem find_insert_self {α : Type} (reg : Registry α) (k : TypeId) (e : ObjectCompatEntry α) :
    find (insert reg k e) k = some e := by
  simp only [insert, find, if_true]

theorem find_insert_ne {α : Type} (reg : Registry α) (k t : TypeId) (e : ObjectCompatEntry α)
    (h : t ≠ k) : find (insert reg k e) t = find reg t := by
  have h2 : ¬ k = t := fun h3 => h h3.symm
  simp only [insert, find, h2, if_false, find_remove_ne reg k t h]

theorem find_some_mem_keys {α : Type} (reg : Registry α) (t : TypeId) (e : ObjectCompatEntry α)
    (h : find reg t = some e) : t ∈ keys reg := by
  induction reg with
  | nil => simp [find] at h
  | cons p rest ih =>
    obtain ⟨k1, e1⟩ := p
    by_cases hk : k1 = t
    · simp [keys, hk]
    · simp only [find, hk, if_false] at h
      have h2 := ih h
      simp only [keys, List.map_cons, List.mem_cons] at h2 ⊢
      exact Or.inr h2

theorem not_mem_keys_remove {α : Type} (reg : Registry α) (k : TypeId) :
    k ∉ keys (remove reg k) := by
  induction reg with
  | nil => simp [remove, keys]
  | cons p rest ih =>
    obtain ⟨k1, e1⟩ := p
    by_cases hk : k1 = k
    · simp only [remove, hk, if_true]
      exact ih
    · simp only [remove, hk, if_false, keys, List.map_cons, List.mem_cons, not_or]
      exact ⟨fun h => hk h.symm, ih⟩

/-! ## Lemmas on the flag test -/

theorem two_pow_and_ne_zero_iff (k p : Nat) : 2 ^ k &&& p ≠ 0 ↔ 2 ^ k &&& p = 2 ^ k := by
  rw [Nat.two_pow_and]
  have hpos : 0 < 2 ^ k := Nat.two_pow_pos k
  cases p.testBit k
  · simp only [Bool.toNat_false, Nat.mul_zero, ne_eq, not_true_eq_false, false_iff]
    omega
  · simp only [Bool.toNat_true, Nat.mul_one, ne_eq, iff_true]
    omega

theorem toFlags_eq_zero_iff (F : Feature) : F.toFlags = 0 ↔ F = Feature.noFeature := by
  cases F with
  | noFeature => simp [Feature.toFlags]
  | bit k => simp [Feature.toFlags]

theorem peerRecentEnough_iff (F : Feature) (peer : Features) :
    peerRecentEnough F peer = true ↔ F = Feature.noFeature ∨ hasFlags peer F.toFlags := by
  cases F with
  | noFeature => simp [peerRecentEnough, Feature.toFlags]
  | bit k =>
    have h := two_pow_and_ne_zero_iff k peer
    simp [peerRecentEnough, Feature.toFlags, hasFlags] at h ⊢
    exact h

theorem peerRecentEnough_noFeature (peer : Features) :
    peerRecentEnough Feature.noFeature peer = true := by
  simp [peerRecentEnough, Feature.toFlags]

/-! ## Dropping the calls gives the plain functions -/

theorem untraced_innerDowngradeTraced {α : Type} (reg : Registry α) (fuel : Nat)
    (d : Downgrader α) (peer : Features) (input : Instance α) :
    untraced (innerDowngradeTraced reg fuel d peer input) = innerDowngrade reg fuel d peer input := by
  induction fuel generalizing d input with
  | zero => rfl
  | succ n ih =>
    simp only [innerDowngradeTraced, innerDowngrade]
    cases hf : find reg d.target with
    | none => rfl
    | some s =>
      simp only
      by_cases hp : peerRecentEnough s.featureFlag peer = true
      · simp [hp, untraced]
      · simp only [hp]
        cases hd : s.downgrade with
        | none => rfl
        | some next =>
          simp only
          rw [← ih]
          cases innerDowngradeTraced reg n next peer
            { metaType := d.target, data := d.convert input } with
          | error err => rfl
          | ok r => rfl

theorem untraced_sendOrDowngradeTraced {α : Type} (reg : Registry α) (fuel : Nat)
    (peer : Features) (t : TypeId) (s : ObjectCompatEntry α) (input : Instance α) :
    untraced (sendOrDowngradeTraced reg fuel peer t s input) =
      sendOrDowngrade reg fuel peer t s input := by
  simp only [sendOrDowngradeTraced, sendOrDowngrade]
  by_cases hp : peerRecentEnough s.featureFlag peer = true
  · simp [hp, untraced]
  · simp only [hp]
    cases hd : s.downgrade with
    | none => rfl
    | some next => exact untraced_innerDowngradeTraced reg fuel next peer input

theorem untraced_cons {α : Type} (c : Call) (r : Except CompatError (QVariant α × List Call)) :
    untraced (match r with
      | Except.error err => Except.error err
      | Except.ok (q, calls) => Except.ok (q, c :: calls)) = untraced r := by
  cases r with
  | error err => rfl
  | ok r => rfl

theorem untraced_peerCompatibleQVariantTraced {α : Type} (reg : Registry α) (fuel : Nat)
    (peer : Features) (t : TypeId) (input : Instance α) :
    untraced (peerCompatibleQVariantTraced reg fuel peer t input) =
      peerCompatibleQVariant reg fuel peer t input := by
  simp only [peerCompatibleQVariantTraced, peerCompatibleQVariant]
  cases hf : find reg t with
  | none => rfl
  | some s =>
    simp only
    by_cases hr : s.virtualMetaTypeOf input = t
    · simp only [hr, ne_eq, not_true_eq_false, if_false]
      rw [untraced_cons, untraced_sendOrDowngradeTraced]
    · simp only [hr, ne_eq, not_false_eq_true, if_true]
      cases hf2 : find reg (s.virtualMetaTypeOf input) with
      | none => rfl
      | some s2 =>
        simp only
        rw [untraced_cons, untraced_sendOrDowngradeTraced]

/-! ## What every registry built through the public interface satisfies -/

theorem Registered.resolver_shape {α : Type} {reg : Registry α} (hreg : Registered reg)
    (k : TypeId) (e : ObjectCompatEntry α) (h : find reg k = some e) :
    ∃ T : MetaType, T.id = k ∧ e.virtualMetaTypeOf = makeInnerVirtualMetaTypeOf T := by
  induction hreg with
  | empty => simp [empty, find] at h
  | forVersionsWithout I R F flag _ ih =>
    by_cases hk : k = I.id
    · subst hk
      rw [ObjectCompat.forVersionsWithout, find_insert_self] at h
      cases h
      exact ⟨I, rfl, rfl⟩
    · rw [ObjectCompat.forVersionsWithout, find_insert_ne _ _ _ _ hk] at h
      exact ih h
  | registerVirtualType M _ ih =>
    by_cases hk : k = M.id
    · subst hk
      rw [ObjectCompat.registerVirtualType, find_insert_self] at h
      cases h
      exact ⟨M, rfl, rfl⟩
    · rw [ObjectCompat.registerVirtualType, find_insert_ne _ _ _ _ hk] at h
      exact ih h

theorem Registered.downgrade_present {α : Type} {reg : Registry α} (hreg : Registered reg)
    (k : TypeId) (e : ObjectCompatEntry α) (h : find reg k = some e)
    (hflag : e.featureFlag ≠ Feature.noFeature) : ∃ d, e.downgrade = some d := by
  induction hreg with
  | empty => simp [empty, find] at h
  | forVersionsWithout I R F flag _ ih =>
    by_cases hk : k = I.id
    · subst hk
      rw [ObjectCompat.forVersionsWithout, find_insert_self] at h
      cases h
      exact ⟨_, rfl⟩
    · rw [ObjectCompat.forVersionsWithout, find_insert_ne _ _ _ _ hk] at h
      exact ih h
  | registerVirtualType M _ ih =>
    by_cases hk : k = M.id
    · subst hk
      rw [ObjectCompat.registerVirtualType, find_insert_self] at h
      cases h
      exact absurd rfl hflag
    · rw [ObjectCompat.registerVirtualType, find_insert_ne _ _ _ _ hk] at h
      exact ih h

theorem Registered.resolver_cases {α : Type} {reg : Registry α} (hreg : Registered reg)
    (k : TypeId) (e : ObjectCompatEntry α) (h : find reg k = some e) (i : Instance α) :
    e.virtualMetaTypeOf i = k ∨ e.virtualMetaTypeOf i = i.metaType := by
  obtain ⟨T, hT, hres⟩ := hreg.resolver_shape k e h
  rw [hres]
  cases hv : T.isVirtual with
  | false =>
    left
    simp [makeInnerVirtualMetaTypeOf, virtualMetaTypeOf, hv, hT]
  | true =>
    right
    simp [makeInnerVirtualMetaTypeOf, virtualMetaTypeOf, hv, Instance.virtualMetaType]

theorem Registered.resolver_self {α : Type} {reg : Registry α} (hreg : Registered reg)
    (k : TypeId) (e : ObjectCompatEntry α) (h : find reg k = some e) (i : Instance α)
    (hi : i.metaType = k) : e.virtualMetaTypeOf i = k := by
  rcases hreg.resolver_cases k e h i with h1 | h1
  · exact h1
  · rw [h1, hi]

/-! ## Fuel -/

theorem innerDowngrade_succ {α : Type} (reg : Registry α) (fuel : Nat) (d : Downgrader α)
    (peer : Features) (input : Instance α) (q : QVariant α)
    (h : innerDowngrade reg fuel d peer input = Except.ok q) :
    innerDowngrade reg (fuel + 1) d peer input = Except.ok q := by
  induction fuel generalizing d input with
  | zero => simp [innerDowngrade] at h
  | succ n ih =>
    rw [innerDowngrade] at h ⊢
    cases hf : find reg d.target with
    | none => simpa [hf] using h
    | some s =>
      simp only [hf] at h ⊢
      by_cases hp : peerRecentEnough s.featureFlag peer = true
      · simpa [hp] using h
      · simp only [hp] at h ⊢
        cases hd : s.downgrade with
        | none => simp [hd] at h
        | some next =>
          simp only [hd] at h ⊢
          exact ih next _ h

theorem innerDowngrade_mono {α : Type} (reg : Registry α) (fuel more : Nat) (d : Downgrader α)
    (peer : Features) (input : Instance α) (q : QVariant α)
    (h : innerDowngrade reg fuel d peer input = Except.ok q) (hle : fuel ≤ more) :
    innerDowngrade reg more d peer input = Except.ok q := by
  induction more with
  | zero =>
    have h0 : fuel = 0 := Nat.le_zero.mp hle
    rw [h0] at h
    exact h
  | succ n ih =>
    by_cases hn : fuel ≤ n
    · exact innerDowngrade_succ reg n d peer input q (ih hn)
    · have h1 : fuel = n + 1 := by omega
      rw [h1] at h
      exact h

theorem sendOrDowngrade_mono {α : Type} (reg : Registry α) (fuel more : Nat) (peer : Features)
    (t : TypeId) (s : ObjectCompatEntry α) (input : Instance α) (q : QVariant α)
    (h : sendOrDowngrade reg fuel peer t s input = Except.ok q) (hle : fuel ≤ more) :
    sendOrDowngrade reg more peer t s input = Except.ok q := by
  simp only [sendOrDowngrade] at h ⊢
  by_cases hp : peerRecentEnough s.featureFlag peer = true
  · simpa [hp] using h
  · simp only [hp] at h ⊢
    cases hd : s.downgrade with
    | none => simp [hd] at h
    | some next =>
      simp only [hd] at h ⊢
      exact innerDowngrade_mono reg fuel more next peer input q h hle

theorem peerCompatibleQVariant_mono {α : Type} (reg : Registry α) (fuel more : Nat)
    (peer : Features) (t : TypeId) (input : Instance α) (q : QVariant α)
    (h : peerCompatibleQVariant reg fuel peer t input = Except.ok q) (hle : fuel ≤ more) :
    peerCompatibleQVariant reg more peer t input = Except.ok q := by
  simp only [peerCompatibleQVariant] at h ⊢
  cases hf : find reg t with
  | none => simpa [hf] using h
  | some s =>
    simp only [hf] at h ⊢
    by_cases hr : s.virtualMetaTypeOf input = t
    · simp only [hr, ne_eq, not_true_eq_false, if_false] at h ⊢
      exact sendOrDowngrade_mono reg fuel more peer t s input q h hle
    · simp only [hr, ne_eq, not_false_eq_true, if_true] at h ⊢
      cases hf2 : find reg (s.virtualMetaTypeOf input) with
      | none => simpa [hf2] using h
      | some s2 =>
        simp only [hf2] at h ⊢
        exact sendOrDowngrade_mono reg fuel more peer _ s2 input q h hle

/-! ## The tag of a result, and termination on acyclic registries -/

theorem peerUnderstands_of_recentEnough {α : Type} (reg : Registry α) (peer : Features)
    (t : TypeId) (s : ObjectCompatEntry α) (hf : find reg t = some s)
    (hp : peerRecentEnough s.featureFlag peer = true) : peerUnderstands reg peer t := by
  have hfl : flagsNeeded reg t = s.featureFlag.toFlags := by simp [flagsNeeded, hf]
  by_cases h0 : s.featureFlag.toFlags = 0
  · exact Or.inr (Or.inl (hfl.trans h0))
  · rcases (peerRecentEnough_iff _ _).mp hp with h1 | h1
    · exact absurd ((toFlags_eq_zero_iff _).mpr h1) h0
    · refine Or.inr (Or.inr ⟨?_, ?_⟩)
      · rw [hfl]; exact h0
      · rw [hfl]; exact h1

theorem innerDowngrade_understood {α : Type} (reg : Registry α) (fuel : Nat) (d : Downgrader α)
    (peer : Features) (input : Instance α) (q : QVariant α)
    (h : innerDowngrade reg fuel d peer input = Except.ok q) :
    peerUnderstands reg peer q.userType := by
  induction fuel generalizing d input with
  | zero => simp [innerDowngrade] at h
  | succ n ih =>
    rw [innerDowngrade] at h
    cases hf : find reg d.target with
    | none =>
      simp only [hf, Except.ok.injEq] at h
      subst h
      exact Or.inl hf
    | some s =>
      simp only [hf] at h
      by_cases hp : peerRecentEnough s.featureFlag peer = true
      · simp only [hp, if_true, Except.ok.injEq] at h
        subst h
        exact peerUnderstands_of_recentEnough reg peer d.target s hf hp
      · simp only [hp] at h
        cases hd : s.downgrade with
        | none => simp [hd] at h
        | some next =>
          simp only [hd] at h
          exact ih next _ h

theorem innerDowngrade_ne_outOfFuel {α : Type} (reg : Registry α) (hacyc : Acyclic reg)
    (fuel : Nat) (d : Downgrader α) (peer : Features) (input : Instance α)
    (seen : List TypeId) (hnd : seen.Nodup) (hsub : seen ⊆ keys reg)
    (hreach : ∀ x ∈ seen, Relation.TransGen (downgradesTo reg) x d.target)
    (hfuel : (keys reg).length < fuel + seen.length) :
    innerDowngrade reg fuel d peer input ≠ Except.error CompatError.outOfFuel := by
  induction fuel generalizing d input seen with
  | zero =>
    have hle : seen.length ≤ (keys reg).length := (hnd.subperm hsub).length_le
    omega
  | succ n ih =>
    rw [innerDowngrade]
    cases hf : find reg d.target with
    | none => simp
    | some s =>
      simp only
      by_cases hp : peerRecentEnough s.featureFlag peer = true
      · simp [hp]
      · simp only [hp]
        cases hd : s.downgrade with
        | none => simp
        | some next =>
          simp only
          have hlink : downgradesTo reg d.target next.target := ⟨s, next, hf, hd, rfl⟩
          have hnot : d.target ∉ seen := fun hmem => hacyc d.target (hreach d.target hmem)
          apply ih next _ (d.target :: seen)
          · exact List.nodup_cons.mpr ⟨hnot, hnd⟩
          · intro x hx
            rcases List.mem_cons.mp hx with hx1 | hx1
            · rw [hx1]; exact find_some_mem_keys reg d.target s hf
            · exact hsub hx1
          · intro x hx
            rcases List.mem_cons.mp hx with hx1 | hx1
            · rw [hx1]; exact Relation.TransGen.single hlink
            · exact Relation.TransGen.tail (hreach x hx1) hlink
          · simp only [List.length_cons]
            omega

theorem innerDowngrade_ne_nullDowngrade {α : Type} (reg : Registry α) (hreg : Registered reg)
    (fuel : Nat) (d : Downgrader α) (peer : Features) (input : Instance α) :
    innerDowngrade reg fuel d peer input ≠ Except.error CompatError.nullDowngrade := by
  induction fuel generalizing d input with
  | zero => simp [innerDowngrade]
  | succ n ih =>
    rw [innerDowngrade]
    cases hf : find reg d.target with
    | none => simp
    | some s =>
      simp only
      by_cases hp : peerRecentEnough s.featureFlag peer = true
      · simp [hp]
      · simp only [hp]
        have hflag : s.featureFlag ≠ Feature.noFeature := by
          intro h0
          rw [h0, peerRecentEnough_noFeature] at hp
          exact hp rfl
        obtain ⟨next, hd⟩ := hreg.downgrade_present d.target s hf hflag
        simp only [hd]
        exact ih next _

theorem innerDowngrade_terminates {α : Type} (reg : Registry α) (hreg : Registered reg)
    (hacyc : Acyclic reg) (fuel : Nat) (hfuel : reg.length < fuel) (d : Downgrader α)
    (peer : Features) (input : Instance α) :
    ∃ q, innerDowngrade reg fuel d peer input = Except.ok q := by
  have h1 := innerDowngrade_ne_outOfFuel reg hacyc fuel d peer input [] List.nodup_nil
    (List.nil_subset _) (fun x hx => absurd hx (List.not_mem_nil x))
    (by simpa [keys] using hfuel)
  have h2 := innerDowngrade_ne_nullDowngrade reg hreg fuel d peer input
  cases hres : innerDowngrade reg fuel d peer input with
  | ok q => exact ⟨q, rfl⟩
  | error err =>
    cases err with
    | nullDowngrade => exact absurd hres h2
    | outOfFuel => exact absurd hres h1

theorem sendOrDowngrade_understood {α : Type} (reg : Registry α) (fuel : Nat) (peer : Features)
    (t : TypeId) (s : ObjectCompatEntry α) (hf : find reg t = some s) (input : Instance α)
    (q : QVariant α) (h : sendOrDowngrade reg fuel peer t s input = Except.ok q) :
    peerUnderstands reg peer q.userType := by
  simp only [sendOrDowngrade] at h
  by_cases hp : peerRecentEnough s.featureFlag peer = true
  · simp only [hp, if_true, Except.ok.injEq] at h
    subst h
    exact peerUnderstands_of_recentEnough reg peer t s hf hp
  · simp only [hp] at h
    cases hd : s.downgrade with
    | none => simp [hd] at h
    | some next =>
      simp only [hd] at h
      exact innerDowngrade_understood reg fuel next peer input q h

theorem sendOrDowngrade_terminates {α : Type} (reg : Registry α) (hreg : Registered reg)
    (hacyc : Acyclic reg) (fuel : Nat) (hfuel : reg.length < fuel) (peer : Features)
    (t : TypeId) (s : ObjectCompatEntry α) (hf : find reg t = some s) (input : Instance α) :
    ∃ q, sendOrDowngrade reg fuel peer t s input = Except.ok q := by
  simp only [sendOrDowngrade]
  by_cases hp : peerRecentEnough s.featureFlag peer = true
  · simp [hp]
  · simp only [hp]
    have hflag : s.featureFlag ≠ Feature.noFeature := by
      intro h0
      rw [h0, peerRecentEnough_noFeature] at hp
      exact hp rfl
    obtain ⟨next, hd⟩ := hreg.downgrade_present t s hf hflag
    simp only [hd]
    exact innerDowngrade_terminates reg hreg hacyc fuel hfuel next peer input

/-! ## Facts on the example registries -/

theorem acyclic_of_rank {α : Type} (reg : Registry α) (rank : TypeId → Nat)
    (h : ∀ a b, downgradesTo reg a b → rank b < rank a) : Acyclic reg := by
  have hlt : ∀ a b, Relation.TransGen (downgradesTo reg) a b → rank b < rank a := by
    intro a b hab
    induction hab with
    | single h1 => exact h _ _ h1
    | tail _ h2 ih => exact Nat.lt_trans (h _ _ h2) ih
  intro t ht
  exact Nat.lt_irrefl _ (hlt t t ht)

theorem exampleRegistry_registered : Registered exampleRegistry :=
  Registered.forVersionsWithout V2 V1 halve F2 Registered.empty

theorem chainRegistry_registered : Registered chainRegistry :=
  Registered.forVersionsWithout V3 V2 halve F3
    (Registered.forVersionsWithout V2 V1 halve F2 Registered.empty)

theorem virtualRegistry_registered : Registered virtualRegistry :=
  Registered.forVersionsWithout Leaf V1 halve F2
    (Registered.registerVirtualType Base Registered.empty)

theorem chainRegistry_acyclic : Acyclic chainRegistry := by
  apply acyclic_of_rank chainRegistry (fun t => t.toNat)
  rintro a b ⟨e, d, hf, hd, ht⟩
  simp only [chainRegistry, forVersionsWithout, insert, remove, empty, find, V1, V2, V3] at hf
  by_cases h3 : (3 : Int) = a
  · subst h3
    simp only [if_true, Option.some.injEq] at hf
    subst hf
    simp only [Option.some.injEq] at hd
    subst hd
    subst ht
    decide
  · simp only [h3, if_false] at hf
    by_cases h2 : (2 : Int) = a
    · subst h2
      simp only [if_true, Option.some.injEq] at hf
      subst hf
      simp only [Option.some.injEq] at hd
      subst hd
      subst ht
      decide
    · simp [h2] at hf

/-! ## Lineages under a peer without flags -/

theorem peerRecentEnough_zero_iff (F : Feature) :
    peerRecentEnough F 0 = true ↔ F = Feature.noFeature := by
  cases F with
  | noFeature => simp [peerRecentEnough, Feature.toFlags]
  | bit k =>
    have hpos : 0 < 2 ^ k := Nat.two_pow_pos k
    have hne : ¬ (2 ^ k = 0) := by omega
    simp [peerRecentEnough, Feature.toFlags, hne]

theorem peerRecentEnough_of_flagsNeeded_zero {α : Type} (reg : Registry α) (t : TypeId)
    (s : ObjectCompatEntry α) (hf : find reg t = some s) (h0 : flagsNeeded reg t = 0)
    (peer : Features) : peerRecentEnough s.featureFlag peer = true := by
  have h1 : s.featureFlag.toFlags = 0 := by simpa [flagsNeeded, hf] using h0
  rw [(toFlags_eq_zero_iff _).mp h1]
  exact peerRecentEnough_noFeature peer

theorem innerDowngradeTraced_lineage {α : Type} (reg : Registry α) (rest : List (Downgrader α))
    (d : Downgrader α) (input : Instance α) (fuel : Nat)
    (hlin : IsLineage reg d.target rest) (hfuel : rest.length < fuel) :
    innerDowngradeTraced reg fuel d 0 input =
      Except.ok
        ({ userType := terminalType d.target rest
           data := (applyConversions { metaType := d.target, data := d.convert input } rest).data },
          (d :: rest).map (fun x => Call.conversion x.target)) := by
  induction rest generalizing d input fuel with
  | nil =>
    cases fuel with
    | zero => simp at hfuel
    | succ n =>
      rw [innerDowngradeTraced]
      cases hf : find reg d.target with
      | none => simp [QVariant.ofCopy, terminalType, applyConversions]
      | some s =>
        have h0 : flagsNeeded reg d.target = 0 := by
          rcases hlin with h1 | h1
          · rw [hf] at h1; cases h1
          · exact h1
        have hp := peerRecentEnough_of_flagsNeeded_zero reg d.target s hf h0 0
        simp [hp, QVariant.ofCopy, terminalType, applyConversions]
  | cons d2 rest2 ih =>
    cases fuel with
    | zero => simp at hfuel
    | succ n =>
      obtain ⟨⟨e, hf, hflag, hd⟩, htail⟩ := hlin
      have hp : ¬ peerRecentEnough e.featureFlag 0 = true :=
        fun h => hflag ((peerRecentEnough_zero_iff _).mp h)
      have hn : rest2.length < n := by
        simp only [List.length_cons] at hfuel
        omega
      rw [innerDowngradeTraced]
      simp only [hf, hp, hd, if_false]
      rw [ih d2 _ n htail hn]
      simp [terminalType, applyConversions]

theorem conversions_map_conversion {α : Type} (ds : List (Downgrader α)) :
    conversions (ds.map (fun x => Call.conversion x.target)) = ds.length := by
  induction ds with
  | nil => rfl
  | cons d rest ih =>
    simp only [conversions, List.map_cons, List.filter_cons, if_true, List.length_cons] at ih ⊢
    rw [ih]

theorem peerCompatibleQVariantTraced_lineage {α : Type} (reg : Registry α) (T0 : TypeId)
    (ds : List (Downgrader α)) (v : Instance α) (hlin : IsLineage reg T0 ds)
    (hres : ∀ e, find reg T0 = some e → e.virtualMetaTypeOf v = T0) (fuel : Nat)
    (hfuel : ds.length ≤ fuel) :
    ∃ calls, peerCompatibleQVariantTraced reg fuel 0 T0 v =
        Except.ok ({ userType := terminalType T0 ds, data := (applyConversions v ds).data },
          calls) ∧ conversions calls = ds.length := by
  cases ds with
  | nil =>
    cases hf : find reg T0 with
    | none =>
      refine ⟨[], ?_, rfl⟩
      simp [peerCompatibleQVariantTraced, hf, QVariant.ofCopy, terminalType, applyConversions]
    | some s =>
      have h0 : flagsNeeded reg T0 = 0 := by
        rcases hlin with h1 | h1
        · rw [hf] at h1; cases h1
        · exact h1
      have hp := peerRecentEnough_of_flagsNeeded_zero reg T0 s hf h0 0
      refine ⟨[Call.resolver T0], ?_, rfl⟩
      simp [peerCompatibleQVariantTraced, hf, hres s hf, sendOrDowngradeTraced, hp,
        QVariant.ofCopy, terminalType, applyConversions]
  | cons d rest =>
    obtain ⟨⟨e, hf, hflag, hd⟩, htail⟩ := hlin
    have hp : ¬ peerRecentEnough e.featureFlag 0 = true :=
      fun h => hflag ((peerRecentEnough_zero_iff _).mp h)
    have hn : rest.length < fuel := by
      simp only [List.length_cons] at hfuel
      omega
    refine ⟨Call.resolver T0 :: (d :: rest).map (fun x => Call.conversion x.target), ?_, ?_⟩
    · simp only [peerCompatibleQVariantTraced, hf, hres e hf, ne_eq, not_true_eq_false,
        if_false, sendOrDowngradeTraced, hp, hd]
      rw [innerDowngradeTraced_lineage reg rest d v fuel htail hn]
      simp [terminalType, applyConversions]
    · have h1 := conversions_map_conversion (d :: rest)
      simp only [conversions, List.filter_cons] at h1 ⊢
      exact h1

/-! ## Results are stable -/

theorem innerDowngrade_stable {α : Type} (reg : Registry α) (fuel : Nat) (d : Downgrader α)
    (peer : Features) (input : Instance α) (q : QVariant α)
    (h : innerDowngrade reg fuel d peer input = Except.ok q) :
    find reg q.userType = none ∨
      ∃ s, find reg q.userType = some s ∧ peerRecentEnough s.featureFlag peer = true := by
  induction fuel generalizing d input with
  | zero => simp [innerDowngrade] at h
  | succ n ih =>
    rw [innerDowngrade] at h
    cases hf : find reg d.target with
    | none =>
      simp only [hf, Except.ok.injEq] at h
      subst h
      exact Or.inl hf
    | some s =>
      simp only [hf] at h
      by_cases hp : peerRecentEnough s.featureFlag peer = true
      · simp only [hp, if_true, Except.ok.injEq] at h
        subst h
        exact Or.inr ⟨s, hf, hp⟩
      · simp only [hp] at h
        cases hd : s.downgrade with
        | none => simp [hd] at h
        | some next =>
          simp only [hd] at h
          exact ih next _ h

theorem sendOrDowngrade_stable {α : Type} (reg : Registry α) (fuel : Nat) (peer : Features)
    (t : TypeId) (s : ObjectCompatEntry α) (hf : find reg t = some s) (input : Instance α)
    (q : QVariant α) (h : sendOrDowngrade reg fuel peer t s input = Except.ok q) :
    find reg q.userType = none ∨
      ∃ s, find reg q.userType = some s ∧ peerRecentEnough s.featureFlag peer = true := by
  simp only [sendOrDowngrade] at h
  by_cases hp : peerRecentEnough s.featureFlag peer = true
  · simp only [hp, if_true, Except.ok.injEq] at h
    subst h
    exact Or.inr ⟨s, hf, hp⟩
  · simp only [hp] at h
    cases hd : s.downgrade with
    | none => simp [hd] at h
    | some next =>
      simp only [hd] at h
      exact innerDowngrade_stable reg fuel next peer input q h

theorem peerCompatibleQVariant_stable {α : Type} (reg : Registry α) (fuel : Nat)
    (peer : Features) (t : TypeId) (input : Instance α) (q : QVariant α)
    (h : peerCompatibleQVariant reg fuel peer t input = Except.ok q) :
    find reg q.userType = none ∨
      ∃ s, find reg q.userType = some s ∧ peerRecentEnough s.featureFlag peer = true := by
  simp only [peerCompatibleQVariant] at h
  cases hf : find reg t with
  | none =>
    simp only [hf, Except.ok.injEq] at h
    subst h
    exact Or.inl hf
  | some s =>
    simp only [hf] at h
    by_cases hr : s.virtualMetaTypeOf input = t
    · simp only [hr, ne_eq, not_true_eq_false, if_false] at h
      exact sendOrDowngrade_stable reg fuel peer t s hf input q h
    · simp only [hr, ne_eq, not_false_eq_true, if_true] at h
      cases hf2 : find reg (s.virtualMetaTypeOf input) with
      | none =>
        simp only [hf2, Except.ok.injEq] at h
        subst h
        exact Or.inl hf2
      | some s2 =>
        simp only [hf2] at h
        exact sendOrDowngrade_stable reg fuel peer _ s2 hf2 input q h

/-! ## Registration -/

theorem find_eq_none_of_not_mem_keys {α : Type} (reg : Registry α) (t : TypeId)
    (h : t ∉ keys reg) : find reg t = none := by
  cases hf : find reg t with
  | none => rfl
  | some e => exact absurd (find_some_mem_keys reg t e hf) h

theorem count_keys_insert {α : Type} (reg : Registry α) (k : TypeId) (e : ObjectCompatEntry α) :
    (keys (insert reg k e)).count k = 1 := by
  have h0 : (keys (remove reg k)).count k = 0 :=
    List.count_eq_zero.mpr (not_mem_keys_remove reg k)
  have h1 : keys (insert reg k e) = k :: keys (remove reg k) := rfl
  rw [h1, List.count_cons_self, h0]

theorem downgradesTo_forVersionsWithout_self {α : Type} (reg : Registry α) (I R : MetaType)
    (F : Instance α → α) (flag : Feature) :
    downgradesTo (forVersionsWithout reg I R F flag) I.id R.id :=
  ⟨_, _, find_insert_self reg I.id _, rfl, rfl⟩

theorem downgradesTo_forVersionsWithout_ne {α : Type} (reg : Registry α) (I R : MetaType)
    (F : Instance α → α) (flag : Feature) (a b : TypeId) (hne : a ≠ I.id)
    (h : downgradesTo reg a b) : downgradesTo (forVersionsWithout reg I R F flag) a b := by
  obtain ⟨e, d, hf, hd, ht⟩ := h
  refine ⟨e, d, ?_, hd, ht⟩
  rw [forVersionsWithout, find_insert_ne reg I.id a _ hne]
  exact hf

/-! ## Entries of registries built through the public interface -/

theorem mem_of_mem_remove {α : Type} (reg : Registry α) (k : TypeId)
    (p : TypeId × ObjectCompatEntry α) (h : p ∈ remove reg k) : p ∈ reg := by
  induction reg with
  | nil => simp [remove] at h
  | cons p1 rest ih =>
    obtain ⟨k1, e1⟩ := p1
    by_cases hk : k1 = k
    · simp only [remove, hk, if_true] at h
      exact List.mem_cons_of_mem _ (ih h)
    · simp only [remove, hk, if_false] at h
      rcases List.mem_cons.mp h with h1 | h1
      · rw [h1]; exact List.mem_cons_self _ _
      · exact List.mem_cons_of_mem _ (ih h1)

theorem Registered.mem_downgrade_present {α : Type} {reg : Registry α} (hreg : Registered reg)
    (p : TypeId × ObjectCompatEntry α) (h : p ∈ reg)
    (hflag : p.2.featureFlag ≠ Feature.noFeature) : ∃ d, p.2.downgrade = some d := by
  induction hreg with
  | empty => simp [ObjectCompat.empty] at h
  | forVersionsWithout I R F flag _ ih =>
    rw [ObjectCompat.forVersionsWithout, ObjectCompat.insert] at h
    rcases List.mem_cons.mp h with h1 | h1
    · rw [h1]; exact ⟨_, rfl⟩
    · exact ih (mem_of_mem_remove _ _ _ h1)
  | registerVirtualType M _ ih =>
    rw [ObjectCompat.registerVirtualType, ObjectCompat.insert] at h
    rcases List.mem_cons.mp h with h1 | h1
    · rw [h1] at hflag; exact absurd rfl hflag
    · exact ih (mem_of_mem_remove _ _ _ h1)

theorem sendOrDowngrade_ne_nullDowngrade {α : Type} (reg : Registry α) (hreg : Registered reg)
    (fuel : Nat) (peer : Features) (t : TypeId) (s : ObjectCompatEntry α)
    (hf : find reg t = some s) (input : Instance α) :
    sendOrDowngrade reg fuel peer t s input ≠ Except.error CompatError.nullDowngrade := by
  simp only [sendOrDowngrade]
  by_cases hp : peerRecentEnough s.featureFlag peer = true
  · simp [hp]
  · simp only [hp]
    have hflag : s.featureFlag ≠ Feature.noFeature := by
      intro h0
      rw [h0, peerRecentEnough_noFeature] at hp
      exact hp rfl
    obtain ⟨next, hd⟩ := hreg.downgrade_present t s hf hflag
    simp only [hd]
    exact innerDowngrade_ne_nullDowngrade reg hreg fuel next peer input

/-! ## The number of conversions -/

theorem inLineage_of_link {α : Type} (reg : Registry α) (a b x : TypeId)
    (hlink : downgradesTo reg a b) (h : inLineage reg b x) : Relation.TransGen (downgradesTo reg) a x := by
  rcases h with h1 | h1
  · rw [h1]; exact Relation.TransGen.single hlink
  · exact Relation.TransGen.head hlink h1

theorem conversions_cons_conversion (t : TypeId) (calls : List Call) :
    conversions (Call.conversion t :: calls) = conversions calls + 1 := by
  simp [conversions, List.filter_cons]

theorem conversions_cons_resolver (t : TypeId) (calls : List Call) :
    conversions (Call.resolver t :: calls) = conversions calls := by
  simp [conversions, List.filter_cons]

theorem innerDowngradeTraced_visited {α : Type} (reg : Registry α) (hacyc : Acyclic reg)
    (fuel : Nat) (d : Downgrader α) (peer : Features) (input : Instance α) (q : QVariant α)
    (calls : List Call) (h : innerDowngradeTraced reg fuel d peer input = Except.ok (q, calls)) :
    ∃ visited : List TypeId, visited.Nodup ∧
      (∀ x ∈ visited, x ∈ keys reg ∧ inLineage reg d.target x) ∧
      conversions calls = visited.length + 1 := by
  induction fuel generalizing d input q calls with
  | zero => simp [innerDowngradeTraced] at h
  | succ n ih =>
    rw [innerDowngradeTraced] at h
    cases hf : find reg d.target with
    | none =>
      simp only [hf, Except.ok.injEq, Prod.mk.injEq] at h
      refine ⟨[], List.nodup_nil, fun x hx => absurd hx (List.not_mem_nil x), ?_⟩
      rw [← h.2]; rfl
    | some s =>
      simp only [hf] at h
      by_cases hp : peerRecentEnough s.featureFlag peer = true
      · simp only [hp, if_true, Except.ok.injEq, Prod.mk.injEq] at h
        refine ⟨[], List.nodup_nil, fun x hx => absurd hx (List.not_mem_nil x), ?_⟩
        rw [← h.2]; rfl
      · simp only [hp] at h
        cases hd : s.downgrade with
        | none => simp [hd] at h
        | some next =>
          simp only [hd] at h
          have hlink : downgradesTo reg d.target next.target := ⟨s, next, hf, hd, rfl⟩
          cases hrec : innerDowngradeTraced reg n next peer
              { metaType := d.target, data := d.convert input } with
          | error err => simp [hrec] at h
          | ok r =>
            obtain ⟨q2, calls2⟩ := r
            simp only [hrec, Bool.false_eq_true, if_false, Except.ok.injEq, Prod.mk.injEq] at h
            obtain ⟨visited, hnd, hall, hcount⟩ := ih next _ q2 calls2 hrec
            refine ⟨d.target :: visited, ?_, ?_, ?_⟩
            · refine List.nodup_cons.mpr ⟨?_, hnd⟩
              intro hmem
              exact hacyc d.target (inLineage_of_link reg _ _ _ hlink (hall _ hmem).2)
            · intro x hx
              rcases List.mem_cons.mp hx with hx1 | hx1
              · rw [hx1]
                exact ⟨find_some_mem_keys reg d.target s hf, Or.inl rfl⟩
              · exact ⟨(hall x hx1).1,
                  Or.inr (inLineage_of_link reg _ _ _ hlink (hall x hx1).2)⟩
            · rw [← h.2, conversions_cons_conversion, hcount]
              rfl

theorem sendOrDowngradeTraced_visited {α : Type} (reg : Registry α) (hacyc : Acyclic reg)
    (fuel : Nat) (peer : Features) (a : TypeId) (s : ObjectCompatEntry α)
    (hf : find reg a = some s) (input : Instance α) (q : QVariant α) (calls : List Call)
    (h : sendOrDowngradeTraced reg fuel peer a s input = Except.ok (q, calls)) :
    ∃ lineage : List TypeId, lineage.Nodup ∧
      (∀ x ∈ lineage, x ∈ keys reg ∧ inLineage reg a x) ∧
      conversions calls ≤ lineage.length := by
  simp only [sendOrDowngradeTraced] at h
  by_cases hp : peerRecentEnough s.featureFlag peer = true
  · simp only [hp, if_true, Except.ok.injEq, Prod.mk.injEq] at h
    refine ⟨[], List.nodup_nil, fun x hx => absurd hx (List.not_mem_nil x), ?_⟩
    rw [← h.2]; exact Nat.le_refl _
  · simp only [hp] at h
    cases hd : s.downgrade with
    | none => simp [hd] at h
    | some d =>
      simp only [hd] at h
      have hlink : downgradesTo reg a d.target := ⟨s, d, hf, hd, rfl⟩
      obtain ⟨visited, hnd, hall, hcount⟩ :=
        innerDowngradeTraced_visited reg hacyc fuel d peer input q calls h
      refine ⟨a :: visited, ?_, ?_, ?_⟩
      · refine List.nodup_cons.mpr ⟨?_, hnd⟩
        intro hmem
        exact hacyc a (inLineage_of_link reg _ _ _ hlink (hall _ hmem).2)
      · intro x hx
        rcases List.mem_cons.mp hx with hx1 | hx1
        · rw [hx1]
          exact ⟨find_some_mem_keys reg a s hf, Or.inl rfl⟩
        · exact ⟨(hall x hx1).1, Or.inr (inLineage_of_link reg _ _ _ hlink (hall x hx1).2)⟩
      · rw [hcount]
        exact Nat.le_refl _

theorem sendOrDowngrade_ne_outOfFuel {α : Type} (reg : Registry α) (hacyc : Acyclic reg)
    (fuel : Nat) (hfuel : reg.length < fuel) (peer : Features) (a : TypeId)
    (s : ObjectCompatEntry α) (input : Instance α) :
    sendOrDowngrade reg fuel peer a s input ≠ Except.error CompatError.outOfFuel := by
  simp only [sendOrDowngrade]
  by_cases hp : peerRecentEnough s.featureFlag peer = true
  · simp [hp]
  · simp only [hp]
    cases hd : s.downgrade with
    | none => simp
    | some d =>
      simp only
      exact innerDowngrade_ne_outOfFuel reg hacyc fuel d peer input [] List.nodup_nil
        (List.nil_subset _) (fun x hx => absurd hx (List.not_mem_nil x))
        (by simpa [keys] using hfuel)

/-! ## The claims -/

/-- C1. Pass-through: for a type id without an entry in the registry, whatever the peer
flags and the fuel, `peerCompatibleQVariant` returns the value under the declared type id,
and makes no call through a resolver or a downgrade function. -/
theorem peerCompatibleQVariant_unregistered {α : Type} (reg : Registry α) (fuel : Nat)
    (peerFlags : Features) (t : TypeId) (v : Instance α) (h : find reg t = none) :
    peerCompatibleQVariant reg fuel peerFlags t v = Except.ok { userType := t, data := v.data } ∧
      peerCompatibleQVariantTraced reg fuel peerFlags t v =
        Except.ok ({ userType := t, data := v.data }, []) := by
  constructor
  · simp [peerCompatibleQVariant, h, QVariant.ofCopy]
  · simp [peerCompatibleQVariantTraced, h, QVariant.ofCopy]

theorem peerCompatibleQVariant_unregistered_witness :
    find exampleRegistry 7 = none ∧
      peerCompatibleQVariant exampleRegistry 0 0 7 { metaType := 7, data := 10 } =
        Except.ok { userType := 7, data := 10 } ∧
      peerCompatibleQVariantTraced exampleRegistry 0 0 7 { metaType := 7, data := 10 } =
        Except.ok ({ userType := 7, data := 10 }, []) :=
  ⟨rfl, peerCompatibleQVariant_unregistered exampleRegistry 0 0 7
    { metaType := 7, data := 10 } rfl⟩

/-- C2. Peer compatibility of the result: on a registry built by `forVersionsWithout` and
`registerVirtualType` whose downgrade links are acyclic, with more fuel than the registry
has entries, `peerCompatibleQVariant` returns a value, and its type tag is unregistered, or
needs no flag, or needs a flag that the peer flags hold. -/
theorem peerCompatibleQVariant_understood {α : Type} (reg : Registry α) (hreg : Registered reg)
    (hacyc : Acyclic reg) (peerFlags : Features) (t : TypeId) (v : Instance α) (fuel : Nat)
    (hfuel : reg.length < fuel) :
    ∃ q, peerCompatibleQVariant reg fuel peerFlags t v = Except.ok q ∧
      peerUnderstands reg peerFlags q.userType := by
  simp only [peerCompatibleQVariant]
  cases hf : find reg t with
  | none => exact ⟨_, rfl, Or.inl hf⟩
  | some s =>
    simp only
    by_cases hr : s.virtualMetaTypeOf v = t
    · simp only [hr, ne_eq, not_true_eq_false, if_false]
      obtain ⟨q, hq⟩ := sendOrDowngrade_terminates reg hreg hacyc fuel hfuel peerFlags t s hf v
      exact ⟨q, hq, sendOrDowngrade_understood reg fuel peerFlags t s hf v q hq⟩
    · simp only [hr, ne_eq, not_false_eq_true, if_true]
      cases hf2 : find reg (s.virtualMetaTypeOf v) with
      | none => exact ⟨_, rfl, Or.inl hf2⟩
      | some s2 =>
        simp only
        obtain ⟨q, hq⟩ :=
          sendOrDowngrade_terminates reg hreg hacyc fuel hfuel peerFlags _ s2 hf2 v
        exact ⟨q, hq, sendOrDowngrade_understood reg fuel peerFlags _ s2 hf2 v q hq⟩

theorem peerCompatibleQVariant_understood_witness :
    Registered chainRegistry ∧ Acyclic chainRegistry ∧ chainRegistry.length < 3 ∧
      ∃ q, peerCompatibleQVariant chainRegistry 3 0 3 { metaType := 3, data := 10 } =
          Except.ok q ∧ peerUnderstands chainRegistry 0 q.userType :=
  ⟨chainRegistry_registered, chainRegistry_acyclic, by decide,
    peerCompatibleQVariant_understood chainRegistry chainRegistry_registered
      chainRegistry_acyclic 0 3 { metaType := 3, data := 10 } 3 (by decide)⟩

/-- C3, as stated, fails: `Base` is registered without a flag, yet for an instance of its
subtype `Leaf`, registered under `F2`, a peer without flags is not sent the value under
`Base`: it gets the downgraded value under `V1`. -/
theorem peerCompatibleQVariant_flagSatisfied_counterexample :
    (∃ e, find virtualRegistry Base.id = some e ∧ e.featureFlag = Feature.noFeature) ∧
      peerCompatibleQVariant virtualRegistry 1 0 Base.id { metaType := Leaf.id, data := 10 } =
        Except.ok { userType := V1.id, data := 5 } ∧
      ∀ fuel, peerCompatibleQVariant virtualRegistry fuel 0 Base.id
        { metaType := Leaf.id, data := 10 } ≠ Except.ok { userType := Base.id, data := 10 } := by
  refine ⟨⟨_, rfl, rfl⟩, by decide, ?_⟩
  intro fuel
  cases fuel with
  | zero => decide
  | succ n =>
    have h1 : peerCompatibleQVariant virtualRegistry 1 0 Base.id
        { metaType := Leaf.id, data := 10 } = Except.ok { userType := V1.id, data := 5 } := by
      decide
    rw [peerCompatibleQVariant_mono virtualRegistry 1 (n + 1) 0 Base.id _ _ h1 (by omega)]
    decide

/-- C3, amended: for a type `t` registered with flag `F` whose resolver returns `t` on the
instance `v`, and peer flags that hold `F` (or `F` none), `peerCompatibleQVariant` returns
`v` under `t`; the only call through a function pointer is the resolver of `t`, no
downgrade. -/
theorem peerCompatibleQVariant_flagSatisfied {α : Type} (reg : Registry α) (fuel : Nat)
    (peerFlags : Features) (t : TypeId) (e : ObjectCompatEntry α) (v : Instance α)
    (h : find reg t = some e) (hres : e.virtualMetaTypeOf v = t)
    (hflag : e.featureFlag = Feature.noFeature ∨ hasFlags peerFlags e.featureFlag.toFlags) :
    peerCompatibleQVariant reg fuel peerFlags t v = Except.ok { userType := t, data := v.data } ∧
      peerCompatibleQVariantTraced reg fuel peerFlags t v =
        Except.ok ({ userType := t, data := v.data }, [Call.resolver t]) := by
  have hp : peerRecentEnough e.featureFlag peerFlags = true :=
    (peerRecentEnough_iff _ _).mpr hflag
  constructor
  · simp [peerCompatibleQVariant, h, hres, sendOrDowngrade, hp, QVariant.ofCopy]
  · simp [peerCompatibleQVariantTraced, h, hres, sendOrDowngradeTraced, hp, QVariant.ofCopy]

theorem peerCompatibleQVariant_flagSatisfied_witness :
    peerCompatibleQVariant exampleRegistry 0 1 V2.id { metaType := V2.id, data := 10 } =
        Except.ok { userType := V2.id, data := 10 } ∧
      peerCompatibleQVariantTraced exampleRegistry 0 1 V2.id { metaType := V2.id, data := 10 } =
        Except.ok ({ userType := V2.id, data := 10 }, [Call.resolver V2.id]) :=
  peerCompatibleQVariant_flagSatisfied exampleRegistry 0 1 V2.id
    { virtualMetaTypeOf := makeInnerVirtualMetaTypeOf V2
      featureFlag := F2
      downgrade := some { target := V1.id, convert := halve } }
    { metaType := V2.id, data := 10 } rfl rfl (Or.inr (by decide))

/-- C4, as stated, fails: `Base` is registered under `F2` to downgrade to the unregistered
`V1`, a lineage of one downgrade, yet for an instance of the unregistered subtype `Leaf` and
a peer without flags no conversion runs and the value comes back under `Leaf`, not `V1`. -/
theorem peerCompatibleQVariant_lineage_counterexample :
    IsLineage baseDowngradeRegistry Base.id [{ target := V1.id, convert := halve }] ∧
      (∀ fuel, peerCompatibleQVariantTraced baseDowngradeRegistry fuel 0 Base.id
        { metaType := Leaf.id, data := 10 } =
          Except.ok ({ userType := Leaf.id, data := 10 }, [Call.resolver Base.id])) ∧
      ∀ fuel, peerCompatibleQVariant baseDowngradeRegistry fuel 0 Base.id
        { metaType := Leaf.id, data := 10 } ≠ Except.ok { userType := V1.id, data := 5 } := by
  refine ⟨⟨⟨_, rfl, by decide, rfl⟩, Or.inl rfl⟩, fun fuel => rfl, fun fuel => ?_⟩
  have h : peerCompatibleQVariant baseDowngradeRegistry fuel 0 Base.id
      { metaType := Leaf.id, data := 10 } = Except.ok { userType := Leaf.id, data := 10 } := rfl
  rw [h]
  decide

/-- C4, amended: for a lineage `T0 -> T1 -> ... -> TN` in which every `Ti` before the last
is registered with a feature bit and a downgrade to the next type, `TN` is unregistered or
registered without a flag, and the resolver of `T0` returns `T0` on `v`: with peer flags
empty and fuel at least `N`, `peerCompatibleQVariant` returns the value obtained by the `N`
conversions in order, under `TN`, and the run makes exactly `N` conversion calls. -/
theorem peerCompatibleQVariant_lineage {α : Type} (reg : Registry α) (T0 : TypeId)
    (ds : List (Downgrader α)) (v : Instance α) (hlin : IsLineage reg T0 ds)
    (hres : ∀ e, find reg T0 = some e → e.virtualMetaTypeOf v = T0) (fuel : Nat)
    (hfuel : ds.length ≤ fuel) :
    peerCompatibleQVariant reg fuel 0 T0 v =
        Except.ok { userType := terminalType T0 ds, data := (applyConversions v ds).data } ∧
      ∃ calls, peerCompatibleQVariantTraced reg fuel 0 T0 v =
        Except.ok ({ userType := terminalType T0 ds, data := (applyConversions v ds).data },
          calls) ∧ conversions calls = ds.length := by
  obtain ⟨calls, h1, h2⟩ := peerCompatibleQVariantTraced_lineage reg T0 ds v hlin hres fuel hfuel
  refine ⟨?_, calls, h1, h2⟩
  rw [← untraced_peerCompatibleQVariantTraced, h1]
  rfl

theorem peerCompatibleQVariant_lineage_witness :
    IsLineage chainRegistry V3.id
        [{ target := V2.id, convert := halve }, { target := V1.id, convert := halve }] ∧
      peerCompatibleQVariant chainRegistry 2 0 V3.id { metaType := V3.id, data := 10 } =
        Except.ok { userType := V1.id, data := 2 } ∧
      ∃ calls, peerCompatibleQVariantTraced chainRegistry 2 0 V3.id
          { metaType := V3.id, data := 10 } =
        Except.ok ({ userType := V1.id, data := 2 }, calls) ∧ conversions calls = 2 :=
  ⟨⟨⟨_, rfl, by decide, rfl⟩, ⟨_, rfl, by decide, rfl⟩, Or.inl rfl⟩,
    peerCompatibleQVariant_lineage chainRegistry V3.id
      [{ target := V2.id, convert := halve }, { target := V1.id, convert := halve }]
      { metaType := V3.id, data := 10 }
      ⟨⟨_, rfl, by decide, rfl⟩, ⟨_, rfl, by decide, rfl⟩, Or.inl rfl⟩
      (fun e h => by cases h; rfl) 2 (by decide)⟩

/-- C5. Virtual resolution: on a registry built by the two registration calls, if the
entry of the declared type `B` resolves the instance `v` to `S` with `S ≠ B`, then for every
peer flags and fuel `peerCompatibleQVariant` on `(B, v)` returns what it returns on
`(S, v)`, whether `S` is registered or not. -/
theorem peerCompatibleQVariant_virtualResolution {α : Type} (reg : Registry α)
    (hreg : Registered reg) (fuel : Nat) (peerFlags : Features) (B S : TypeId)
    (eB : ObjectCompatEntry α) (v : Instance α) (hB : find reg B = some eB)
    (hres : eB.virtualMetaTypeOf v = S) (hne : S ≠ B) :
    peerCompatibleQVariant reg fuel peerFlags B v =
      peerCompatibleQVariant reg fuel peerFlags S v := by
  have hv : v.metaType = S := by
    rcases hreg.resolver_cases B eB hB v with h1 | h1
    · exact absurd (hres.symm.trans h1) hne
    · exact h1.symm.trans hres
  simp only [peerCompatibleQVariant, hB, hres, ne_eq, hne, not_false_eq_true, if_true]
  cases hS : find reg S with
  | none => rfl
  | some s2 =>
    have h2 : s2.virtualMetaTypeOf v = S := hreg.resolver_self S s2 hS v hv
    simp only [h2, not_true_eq_false, if_false]

theorem peerCompatibleQVariant_virtualResolution_witness :
    Registered virtualRegistry ∧ Leaf.id ≠ Base.id ∧
      peerCompatibleQVariant virtualRegistry 1 0 Base.id { metaType := Leaf.id, data := 10 } =
        peerCompatibleQVariant virtualRegistry 1 0 Leaf.id { metaType := Leaf.id, data := 10 } :=
  ⟨virtualRegistry_registered, by decide,
    peerCompatibleQVariant_virtualResolution virtualRegistry virtualRegistry_registered 1 0
      Base.id Leaf.id
      { virtualMetaTypeOf := makeInnerVirtualMetaTypeOf Base
        featureFlag := Feature.noFeature
        downgrade := none }
      { metaType := Leaf.id, data := 10 } rfl rfl (by decide)⟩

/-- C6. Idempotence: on a registry built by the two registration calls, if
`peerCompatibleQVariant` returns the variant `q` for some peer flags, then running it again
with the same peer flags on the value held by `q`, declared as the type of `q`, returns `q`
again, whatever the fuel. -/
theorem peerCompatibleQVariant_idempotent {α : Type} (reg : Registry α) (hreg : Registered reg)
    (fuel : Nat) (peerFlags : Features) (t : TypeId) (v : Instance α) (q : QVariant α)
    (h : peerCompatibleQVariant reg fuel peerFlags t v = Except.ok q) (again : Nat) :
    peerCompatibleQVariant reg again peerFlags q.userType q.constData = Except.ok q := by
  rcases peerCompatibleQVariant_stable reg fuel peerFlags t v q h with h1 | ⟨s, h1, hp⟩
  · simp [peerCompatibleQVariant, h1, QVariant.ofCopy, QVariant.constData]
  · have h2 : s.virtualMetaTypeOf q.constData = q.userType :=
      hreg.resolver_self q.userType s h1 q.constData rfl
    simp only [peerCompatibleQVariant, h1, h2, ne_eq, not_true_eq_false, if_false,
      sendOrDowngrade, hp, if_true]
    rfl

theorem peerCompatibleQVariant_idempotent_witness :
    Registered chainRegistry ∧
      peerCompatibleQVariant chainRegistry 2 1 V3.id { metaType := V3.id, data := 10 } =
        Except.ok { userType := V2.id, data := 5 } ∧
      peerCompatibleQVariant chainRegistry 0 1 V2.id { metaType := V2.id, data := 5 } =
        Except.ok { userType := V2.id, data := 5 } :=
  ⟨chainRegistry_registered, by decide,
    peerCompatibleQVariant_idempotent chainRegistry chainRegistry_registered 2 1 V3.id
      { metaType := V3.id, data := 10 } { userType := V2.id, data := 5 } (by decide) 0⟩

/-- C7, as stated, fails: with `V2` registered to downgrade to `V1`, registering `V1` to
downgrade to `V2` is carried out like any other registration, and the registry then holds
both links, so it is cyclic. -/
theorem forVersionsWithout_cycle_counterexample :
    downgradesTo exampleRegistry V2.id V1.id ∧
      cyclicRegistry = forVersionsWithout exampleRegistry V1 V2 halve F3 ∧
      downgradesTo cyclicRegistry V2.id V1.id ∧ downgradesTo cyclicRegistry V1.id V2.id ∧
      ¬ Acyclic cyclicRegistry := by
  have h21 : downgradesTo cyclicRegistry V2.id V1.id := ⟨_, _, rfl, rfl, rfl⟩
  have h12 : downgradesTo cyclicRegistry V1.id V2.id := ⟨_, _, rfl, rfl, rfl⟩
  refine ⟨⟨_, _, rfl, rfl, rfl⟩, rfl, h21, h12, ?_⟩
  intro hacyc
  exact hacyc V2.id (Relation.TransGen.tail (Relation.TransGen.single h21) h12)

/-- C7, amended: `forVersionsWithout` makes no check of the downgrade links. On a registry
in which `A` downgrades to `B`, with `A` and `B` distinct, registering `B` to downgrade to
`A` gives a registry that holds both links, hence a cyclic one. -/
theorem forVersionsWithout_closes_cycle {α : Type} (reg : Registry α) (A B : MetaType)
    (F : Instance α → α) (featureFlag : Feature) (hAB : downgradesTo reg A.id B.id)
    (hne : A.id ≠ B.id) :
    downgradesTo (forVersionsWithout reg B A F featureFlag) A.id B.id ∧
      downgradesTo (forVersionsWithout reg B A F featureFlag) B.id A.id ∧
      ¬ Acyclic (forVersionsWithout reg B A F featureFlag) := by
  have h1 := downgradesTo_forVersionsWithout_ne reg B A F featureFlag A.id B.id hne hAB
  have h2 := downgradesTo_forVersionsWithout_self reg B A F featureFlag
  refine ⟨h1, h2, ?_⟩
  intro hacyc
  exact hacyc A.id (Relation.TransGen.tail (Relation.TransGen.single h1) h2)

theorem forVersionsWithout_closes_cycle_witness :
    downgradesTo exampleRegistry V2.id V1.id ∧ V2.id ≠ V1.id ∧
      downgradesTo (forVersionsWithout exampleRegistry V1 V2 halve F3) V2.id V1.id ∧
      downgradesTo (forVersionsWithout exampleRegistry V1 V2 halve F3) V1.id V2.id ∧
      ¬ Acyclic (forVersionsWithout exampleRegistry V1 V2 halve F3) :=
  ⟨⟨_, _, rfl, rfl, rfl⟩, by decide,
    forVersionsWithout_closes_cycle exampleRegistry V2 V1 halve F3 ⟨_, _, rfl, rfl, rfl⟩
      (by decide)⟩

/-- C8. One-step downgrade: let `I` be registered with a feature bit `F`, the default
(non-virtual) resolver and a downgrade by `convert` to `R`, where `R` is unregistered or needs
no flag. For peer flags that do not hold `F`, `peerCompatibleQVariant` on `(I, v)` returns
`convert v` under `R`; for peer flags that hold `F` it returns `v` under `I`. -/
theorem peerCompatibleQVariant_oneStep {α : Type} (reg : Registry α) (I : MetaType)
    (R : TypeId) (convert : Instance α → α) (k : Nat) (e : ObjectCompatEntry α)
    (hI : find reg I.id = some e) (hnonvirtual : I.isVirtual = false)
    (hresolver : e.virtualMetaTypeOf = makeInnerVirtualMetaTypeOf I)
    (hflag : e.featureFlag = Feature.bit k)
    (hdown : e.downgrade = some { target := R, convert := convert })
    (hR : find reg R = none ∨ flagsNeeded reg R = 0)
    (peerFlags : Features) (v : Instance α) (fuel : Nat) :
    (¬ hasFlags peerFlags (Feature.bit k).toFlags →
        peerCompatibleQVariant reg (fuel + 1) peerFlags I.id v =
          Except.ok { userType := R, data := convert v }) ∧
      (hasFlags peerFlags (Feature.bit k).toFlags →
        peerCompatibleQVariant reg fuel peerFlags I.id v =
          Except.ok { userType := I.id, data := v.data }) := by
  have hres : e.virtualMetaTypeOf v = I.id := by
    rw [hresolver]
    simp [makeInnerVirtualMetaTypeOf, virtualMetaTypeOf, hnonvirtual]
  constructor
  · intro hlack
    have hp : ¬ peerRecentEnough e.featureFlag peerFlags = true := by
      intro hp
      rcases (peerRecentEnough_iff _ _).mp hp with h1 | h1
      · rw [hflag] at h1; cases h1
      · rw [hflag] at h1; exact hlack h1
    simp only [peerCompatibleQVariant, hI, hres, ne_eq, not_true_eq_false, if_false,
      sendOrDowngrade, hp, hdown, innerDowngrade]
    cases hf : find reg R with
    | none => rfl
    | some s =>
      have h0 : flagsNeeded reg R = 0 := by
        rcases hR with h1 | h1
        · rw [hf] at h1; cases h1
        · exact h1
      have hp2 := peerRecentEnough_of_flagsNeeded_zero reg R s hf h0 peerFlags
      simp only [hp2, if_true]
      rfl
  · intro hhas
    have hp : peerRecentEnough e.featureFlag peerFlags = true :=
      (peerRecentEnough_iff _ _).mpr (Or.inr (by rw [hflag]; exact hhas))
    simp only [peerCompatibleQVariant, hI, hres, ne_eq, not_true_eq_false, if_false,
      sendOrDowngrade, hp, if_true]
    rfl

theorem peerCompatibleQVariant_oneStep_witness :
    peerCompatibleQVariant exampleRegistry 1 0 V2.id { metaType := V2.id, data := 10 } =
        Except.ok { userType := V1.id, data := 5 } ∧
      peerCompatibleQVariant exampleRegistry 0 F2.toFlags V2.id
          { metaType := V2.id, data := 10 } =
        Except.ok { userType := V2.id, data := 10 } :=
  ⟨(peerCompatibleQVariant_oneStep exampleRegistry V2 V1.id halve 0
      { virtualMetaTypeOf := makeInnerVirtualMetaTypeOf V2
        featureFlag := F2
        downgrade := some { target := V1.id, convert := halve } }
      rfl rfl rfl rfl rfl (Or.inl rfl) 0 { metaType := V2.id, data := 10 } 0).1 (by decide),
    (peerCompatibleQVariant_oneStep exampleRegistry V2 V1.id halve 0
      { virtualMetaTypeOf := makeInnerVirtualMetaTypeOf V2
        featureFlag := F2
        downgrade := some { target := V1.id, convert := halve } }
      rfl rfl rfl rfl rfl (Or.inl rfl) F2.toFlags { metaType := V2.id, data := 10 } 0).2
      (by decide)⟩

/-- C9. The member `flagsNeeded` is total: it returns the feature flag of the entry stored
for the type id when there is one, and 0 for a type id that is not a key of the registry. -/
theorem flagsNeeded_spec {α : Type} (reg : Registry α) (typeId : TypeId) :
    (∀ e, find reg typeId = some e → flagsNeeded reg typeId = e.featureFlag.toFlags) ∧
      (typeId ∉ keys reg → flagsNeeded reg typeId = 0) := by
  constructor
  · intro e h
    simp [flagsNeeded, h]
  · intro h
    simp [flagsNeeded, find_eq_none_of_not_mem_keys reg typeId h]

theorem flagsNeeded_spec_witness :
    flagsNeeded chainRegistry V3.id = F3.toFlags ∧ flagsNeeded chainRegistry V1.id = 0 :=
  ⟨(flagsNeeded_spec chainRegistry V3.id).1
      { virtualMetaTypeOf := makeInnerVirtualMetaTypeOf V3
        featureFlag := F3
        downgrade := some { target := V2.id, convert := halve } } rfl,
    (flagsNeeded_spec chainRegistry V1.id).2 (by decide)⟩

/-- C10. Registration inserts or replaces: after `forVersionsWithout` for `I` (resp.
`registerVirtualType` for `M`) on any registry, the key `I.id` (resp. `M.id`) occurs once,
its entry is the new one, `flagsNeeded` returns the new flag (resp. 0), and the entry found
for every other type id is the one found before. -/
theorem registration_inserts_or_replaces {α : Type} (reg : Registry α) (I R M : MetaType)
    (F : Instance α → α) (featureFlag : Feature) :
    ((keys (forVersionsWithout reg I R F featureFlag)).count I.id = 1 ∧
      find (forVersionsWithout reg I R F featureFlag) I.id =
        some { virtualMetaTypeOf := makeInnerVirtualMetaTypeOf I
               featureFlag := featureFlag
               downgrade := some { target := R.id, convert := F } } ∧
      flagsNeeded (forVersionsWithout reg I R F featureFlag) I.id = featureFlag.toFlags ∧
      ∀ t, t ≠ I.id → find (forVersionsWithout reg I R F featureFlag) t = find reg t) ∧
    ((keys (registerVirtualType reg M)).count M.id = 1 ∧
      find (registerVirtualType reg M) M.id =
        some { virtualMetaTypeOf := makeInnerVirtualMetaTypeOf M
               featureFlag := Feature.noFeature
               downgrade := none } ∧
      flagsNeeded (registerVirtualType reg M) M.id = 0 ∧
      ∀ t, t ≠ M.id → find (registerVirtualType reg M) t = find reg t) := by
  refine ⟨⟨count_keys_insert reg I.id _, find_insert_self reg I.id _, ?_, ?_⟩,
    ⟨count_keys_insert reg M.id _, find_insert_self reg M.id _, ?_, ?_⟩⟩
  · simp [flagsNeeded, forVersionsWithout, find_insert_self]
  · intro t ht
    exact find_insert_ne reg I.id t _ ht
  · simp [flagsNeeded, registerVirtualType, find_insert_self, Feature.toFlags]
  · intro t ht
    exact find_insert_ne reg M.id t _ ht

theorem registration_inserts_or_replaces_witness :
    (keys (forVersionsWithout exampleRegistry V2 V1 halve F3)).count V2.id = 1 ∧
      flagsNeeded exampleRegistry V2.id = F2.toFlags ∧
      flagsNeeded (forVersionsWithout exampleRegistry V2 V1 halve F3) V2.id = F3.toFlags ∧
      flagsNeeded (registerVirtualType exampleRegistry V2) V2.id = 0 ∧
      find (registerVirtualType exampleRegistry V1) V2.id = find exampleRegistry V2.id :=
  ⟨(registration_inserts_or_replaces exampleRegistry V2 V1 V2 halve F3).1.1, rfl,
    (registration_inserts_or_replaces exampleRegistry V2 V1 V2 halve F3).1.2.2.1,
    (registration_inserts_or_replaces exampleRegistry V2 V1 V2 halve F3).2.2.2.1,
    (registration_inserts_or_replaces exampleRegistry V2 V1 V1 halve F3).2.2.2.2 V2.id
      (by decide)⟩

/-- C11. Virtual-resolution anchor: right after `registerVirtualType` for `B`, the entry of
`B` has no flag and no downgrade, `flagsNeeded` of `B` is 0, and for every peer flags and
every instance that the resolver of `B` resolves to `B` itself, `peerCompatibleQVariant`
returns the instance under `B`. -/
theorem registerVirtualType_anchor {α : Type} (reg : Registry α) (B : MetaType)
    (peerFlags : Features) (v : Instance α) (fuel : Nat)
    (hres : makeInnerVirtualMetaTypeOf B v = B.id) :
    find (registerVirtualType reg B) B.id =
        some { virtualMetaTypeOf := makeInnerVirtualMetaTypeOf B
               featureFlag := Feature.noFeature
               downgrade := none } ∧
      flagsNeeded (registerVirtualType reg B) B.id = 0 ∧
      peerCompatibleQVariant (registerVirtualType reg B) fuel peerFlags B.id v =
        Except.ok { userType := B.id, data := v.data } := by
  have hf := find_insert_self reg B.id
    { virtualMetaTypeOf := makeInnerVirtualMetaTypeOf B
      featureFlag := Feature.noFeature
      downgrade := none }
  refine ⟨hf, ?_, ?_⟩
  · simp [flagsNeeded, registerVirtualType, hf, Feature.toFlags]
  · simp only [peerCompatibleQVariant, registerVirtualType, hf, hres, ne_eq,
      not_true_eq_false, if_false, sendOrDowngrade, peerRecentEnough_noFeature, if_true]
    rfl

theorem registerVirtualType_anchor_witness :
    makeInnerVirtualMetaTypeOf Base { metaType := Base.id, data := 7 } = Base.id ∧
      flagsNeeded (registerVirtualType exampleRegistry Base) Base.id = 0 ∧
      peerCompatibleQVariant (registerVirtualType exampleRegistry Base) 0 0 Base.id
          { metaType := Base.id, data := 7 } =
        Except.ok { userType := Base.id, data := 7 } :=
  ⟨rfl, (registerVirtualType_anchor exampleRegistry Base 0
      { metaType := Base.id, data := 7 } 0 rfl).2⟩

/-- C12. The default `virtualMetaTypeOf` of a type that is not declared virtual returns the id
of the declared type whatever the instance; for a type declared virtual it returns the
instance's own `virtualMetaType()`, which is the id of the class the instance was built
as. -/
theorem virtualMetaTypeOf_spec {α : Type} (T : MetaType) :
    (T.isVirtual = false → ∀ i : Instance α, virtualMetaTypeOf T i = T.id) ∧
      (T.isVirtual = true → ∀ i : Instance α, virtualMetaTypeOf T i = i.virtualMetaType) ∧
      ∀ (L : TypeId) (x : α),
        Instance.virtualMetaType { metaType := L, data := x } = L := by
  refine ⟨?_, ?_, ?_⟩
  · intro h i
    simp [virtualMetaTypeOf, h]
  · intro h i
    simp [virtualMetaTypeOf, h]
  · intro L x
    rfl

theorem virtualMetaTypeOf_spec_witness :
    virtualMetaTypeOf Leaf { metaType := V1.id, data := 7 } = Leaf.id ∧
      virtualMetaTypeOf Base { metaType := Leaf.id, data := 7 } = Leaf.id :=
  ⟨(virtualMetaTypeOf_spec Leaf).1 rfl { metaType := V1.id, data := 7 },
    ((virtualMetaTypeOf_spec Base).2.1 rfl { metaType := Leaf.id, data := 7 }).trans
      ((virtualMetaTypeOf_spec Base).2.2 Leaf.id 7)⟩

/-- C13. A peer lacking the flag is not sent the undowngraded type: for a non-virtual type
`I` registered with a feature bit `F` and a downgrade, and peer flags that do not hold `F`,
`peerCompatibleQVariant` on `(I, v)` is the downgrade function of `I` applied to the peer
flags and `v`, and no value it returns is tagged `I`. -/
theorem peerCompatibleQVariant_lackingFlag {α : Type} (reg : Registry α) (I : MetaType)
    (k : Nat) (e : ObjectCompatEntry α) (d : Downgrader α)
    (hI : find reg I.id = some e) (hnonvirtual : I.isVirtual = false)
    (hresolver : e.virtualMetaTypeOf = makeInnerVirtualMetaTypeOf I)
    (hflag : e.featureFlag = Feature.bit k) (hdown : e.downgrade = some d)
    (peerFlags : Features) (hlack : ¬ hasFlags peerFlags (Feature.bit k).toFlags)
    (v : Instance α) (fuel : Nat) :
    peerCompatibleQVariant reg fuel peerFlags I.id v = innerDowngrade reg fuel d peerFlags v ∧
      peerCompatibleQVariant reg fuel peerFlags I.id v ≠
        Except.ok { userType := I.id, data := v.data } ∧
      ∀ q, peerCompatibleQVariant reg fuel peerFlags I.id v = Except.ok q →
        q.userType ≠ I.id := by
  have hres : e.virtualMetaTypeOf v = I.id := by
    rw [hresolver]
    simp [makeInnerVirtualMetaTypeOf, virtualMetaTypeOf, hnonvirtual]
  have hp : ¬ peerRecentEnough e.featureFlag peerFlags = true := by
    intro hp
    rcases (peerRecentEnough_iff _ _).mp hp with h1 | h1
    · rw [hflag] at h1; cases h1
    · rw [hflag] at h1; exact hlack h1
  have htag : ∀ q, peerCompatibleQVariant reg fuel peerFlags I.id v = Except.ok q →
      q.userType ≠ I.id := by
    intro q hq heq
    rcases peerCompatibleQVariant_stable reg fuel peerFlags I.id v q hq with h1 | ⟨s, h1, h2⟩
    · rw [heq, hI] at h1; cases h1
    · rw [heq, hI] at h1
      cases h1
      exact hp h2
  refine ⟨?_, ?_, htag⟩
  · simp only [peerCompatibleQVariant, hI, hres, ne_eq, not_true_eq_false, if_false,
      sendOrDowngrade, hp, hdown, Bool.false_eq_true]
  · intro hq
    exact htag _ hq rfl

theorem peerCompatibleQVariant_lackingFlag_witness :
    ¬ hasFlags 2 (Feature.bit 0).toFlags ∧
      peerCompatibleQVariant exampleRegistry 1 2 V2.id { metaType := V2.id, data := 10 } =
        innerDowngrade exampleRegistry 1 { target := V1.id, convert := halve } 2
          { metaType := V2.id, data := 10 } ∧
      peerCompatibleQVariant exampleRegistry 1 2 V2.id { metaType := V2.id, data := 10 } ≠
        Except.ok { userType := V2.id, data := 10 } :=
  ⟨by decide,
    (peerCompatibleQVariant_lackingFlag exampleRegistry V2 0
      { virtualMetaTypeOf := makeInnerVirtualMetaTypeOf V2
        featureFlag := F2
        downgrade := some { target := V1.id, convert := halve } }
      { target := V1.id, convert := halve } rfl rfl rfl rfl rfl 2 (by decide)
      { metaType := V2.id, data := 10 } 1).1,
    (peerCompatibleQVariant_lackingFlag exampleRegistry V2 0
      { virtualMetaTypeOf := makeInnerVirtualMetaTypeOf V2
        featureFlag := F2
        downgrade := some { target := V1.id, convert := halve } }
      { target := V1.id, convert := halve } rfl rfl rfl rfl rfl 2 (by decide)
      { metaType := V2.id, data := 10 } 1).2.1⟩

/-- C14. In every registry reached from the empty one by calls of `forVersionsWithout` and
`registerVirtualType`, every stored entry with a flag has a downgrade function, and neither
`peerCompatibleQVariant` nor `innerDowngrade` ever calls through a `NULL` downgrade. -/
theorem downgrade_never_null {α : Type} (reg : Registry α) (hreg : Registered reg) :
    (∀ p ∈ reg, p.2.featureFlag ≠ Feature.noFeature → ∃ d, p.2.downgrade = some d) ∧
      (∀ fuel peerFlags t (v : Instance α),
        peerCompatibleQVariant reg fuel peerFlags t v ≠
          Except.error CompatError.nullDowngrade) ∧
      ∀ fuel (d : Downgrader α) peerFlags (v : Instance α),
        innerDowngrade reg fuel d peerFlags v ≠ Except.error CompatError.nullDowngrade := by
  refine ⟨fun p hp hflag => hreg.mem_downgrade_present p hp hflag, ?_,
    fun fuel d peerFlags v => innerDowngrade_ne_nullDowngrade reg hreg fuel d peerFlags v⟩
  intro fuel peerFlags t v
  simp only [peerCompatibleQVariant]
  cases hf : find reg t with
  | none => simp
  | some s =>
    simp only
    by_cases hr : s.virtualMetaTypeOf v = t
    · simp only [hr, ne_eq, not_true_eq_false, if_false]
      exact sendOrDowngrade_ne_nullDowngrade reg hreg fuel peerFlags t s hf v
    · simp only [hr, ne_eq, not_false_eq_true, if_true]
      cases hf2 : find reg (s.virtualMetaTypeOf v) with
      | none => simp
      | some s2 =>
        simp only
        exact sendOrDowngrade_ne_nullDowngrade reg hreg fuel peerFlags _ s2 hf2 v

theorem downgrade_never_null_witness :
    Registered virtualRegistry ∧
      peerCompatibleQVariant virtualRegistry 1 0 Base.id { metaType := Leaf.id, data := 10 } ≠
        Except.error CompatError.nullDowngrade ∧
      innerDowngrade virtualRegistry 1 { target := Base.id, convert := halve } 0
          { metaType := Leaf.id, data := 10 } ≠ Except.error CompatError.nullDowngrade :=
  ⟨virtualRegistry_registered,
    (downgrade_never_null virtualRegistry virtualRegistry_registered).2.1 1 0 Base.id
      { metaType := Leaf.id, data := 10 },
    (downgrade_never_null virtualRegistry virtualRegistry_registered).2.2 1
      { target := Base.id, convert := halve } 0 { metaType := Leaf.id, data := 10 }⟩

/-- C15. Unregistered-subtype pass-through: if the declared type `D` is registered, its
resolver gives `actual ≠ D` for the instance, and `actual` has no entry, then for every peer
flags `peerCompatibleQVariant` returns the instance under `actual`, whatever the flag and
downgrade of the entry of `D`; the only call made is the resolver of `D`. -/
theorem peerCompatibleQVariant_unregisteredSubtype {α : Type} (reg : Registry α) (fuel : Nat)
    (peerFlags : Features) (D actual : TypeId) (eD : ObjectCompatEntry α) (v : Instance α)
    (hD : find reg D = some eD) (hres : eD.virtualMetaTypeOf v = actual) (hne : actual ≠ D)
    (hun : find reg actual = none) :
    peerCompatibleQVariant reg fuel peerFlags D v =
        Except.ok { userType := actual, data := v.data } ∧
      peerCompatibleQVariantTraced reg fuel peerFlags D v =
        Except.ok ({ userType := actual, data := v.data }, [Call.resolver D]) := by
  constructor
  · simp only [peerCompatibleQVariant, hD, hres, ne_eq, hne, not_false_eq_true, if_true, hun]
    rfl
  · simp only [peerCompatibleQVariantTraced, hD, hres, ne_eq, hne, not_false_eq_true, if_true,
      hun]
    rfl

theorem peerCompatibleQVariant_unregisteredSubtype_witness :
    flagsNeeded baseDowngradeRegistry Base.id = F2.toFlags ∧
      ¬ hasFlags 0 F2.toFlags ∧
      peerCompatibleQVariant baseDowngradeRegistry 0 0 Base.id
          { metaType := Leaf.id, data := 10 } =
        Except.ok { userType := Leaf.id, data := 10 } ∧
      peerCompatibleQVariantTraced baseDowngradeRegistry 0 0 Base.id
          { metaType := Leaf.id, data := 10 } =
        Except.ok ({ userType := Leaf.id, data := 10 }, [Call.resolver Base.id]) :=
  ⟨rfl, by decide,
    peerCompatibleQVariant_unregisteredSubtype baseDowngradeRegistry 0 0 Base.id Leaf.id
      { virtualMetaTypeOf := makeInnerVirtualMetaTypeOf Base
        featureFlag := F2
        downgrade := some { target := V1.id, convert := halve } }
      { metaType := Leaf.id, data := 10 } rfl rfl (by decide) rfl⟩

/-- C16. A downgrade step is one conversion followed by adapt on the older type: on a
registry built by the two registration calls, `innerDowngrade` of the downgrade to `R` by
`convert`, applied to the peer flags and `v`, equals `peerCompatibleQVariant` on the peer
flags, the id of `R` and the converted value (`downgradeThenAdapt`); the call of
`innerDowngrade` itself takes the one extra unit of fuel. -/
theorem innerDowngrade_eq_downgradeThenAdapt {α : Type} (reg : Registry α)
    (hreg : Registered reg) (fuel : Nat) (d : Downgrader α) (peerFlags : Features)
    (v : Instance α) :
    innerDowngrade reg (fuel + 1) d peerFlags v = downgradeThenAdapt reg fuel d peerFlags v := by
  rw [innerDowngrade, downgradeThenAdapt, peerCompatibleQVariant]
  cases hf : find reg d.target with
  | none => rfl
  | some s =>
    have hres : s.virtualMetaTypeOf { metaType := d.target, data := d.convert v } = d.target :=
      hreg.resolver_self d.target s hf _ rfl
    simp only [hres, ne_eq, not_true_eq_false, if_false, sendOrDowngrade]

theorem innerDowngrade_eq_downgradeThenAdapt_witness :
    Registered chainRegistry ∧
      innerDowngrade chainRegistry 2 { target := V2.id, convert := halve } 0
          { metaType := V3.id, data := 10 } =
        downgradeThenAdapt chainRegistry 1 { target := V2.id, convert := halve } 0
          { metaType := V3.id, data := 10 } ∧
      downgradeThenAdapt chainRegistry 1 { target := V2.id, convert := halve } 0
          { metaType := V3.id, data := 10 } = Except.ok { userType := V1.id, data := 2 } :=
  ⟨chainRegistry_registered,
    innerDowngrade_eq_downgradeThenAdapt chainRegistry chainRegistry_registered 1
      { target := V2.id, convert := halve } 0 { metaType := V3.id, data := 10 },
    by decide⟩

/-- C17. Bounded depth: on a registry whose downgrade links are acyclic, for every peer
flags, declared type and instance, `peerCompatibleQVariant` never uses up a fuel larger than
the number of entries (and returns a value when the registry was built by the two
registration calls), and the number of conversions of any run that returns is at most the
length of a list of distinct registered types of the lineage of the active type, hence at
most the number of entries. -/
theorem peerCompatibleQVariant_boundedDepth {α : Type} (reg : Registry α) (hacyc : Acyclic reg)
    (peerFlags : Features) (t : TypeId) (v : Instance α) :
    (∀ fuel, reg.length < fuel →
        peerCompatibleQVariant reg fuel peerFlags t v ≠ Except.error CompatError.outOfFuel) ∧
      (Registered reg → ∀ fuel, reg.length < fuel →
        ∃ q, peerCompatibleQVariant reg fuel peerFlags t v = Except.ok q) ∧
      ∀ fuel q calls,
        peerCompatibleQVariantTraced reg fuel peerFlags t v = Except.ok (q, calls) →
        ∃ lineage : List TypeId, lineage.Nodup ∧
          (∀ x ∈ lineage, x ∈ keys reg ∧ inLineage reg (activeType reg t v) x) ∧
          conversions calls ≤ lineage.length ∧ conversions calls ≤ reg.length := by
  have hbound : ∀ lineage : List TypeId, lineage.Nodup →
      (∀ x ∈ lineage, x ∈ keys reg ∧ inLineage reg (activeType reg t v) x) →
      lineage.length ≤ reg.length := by
    intro lineage hnd hall
    have hle := (hnd.subperm (fun x hx => (hall x hx).1)).length_le
    simpa [keys] using hle
  refine ⟨?_, ?_, ?_⟩
  · intro fuel hfuel
    simp only [peerCompatibleQVariant]
    cases hf : find reg t with
    | none => simp
    | some s =>
      simp only
      by_cases hr : s.virtualMetaTypeOf v = t
      · simp only [hr, ne_eq, not_true_eq_false, if_false]
        exact sendOrDowngrade_ne_outOfFuel reg hacyc fuel hfuel peerFlags t s v
      · simp only [hr, ne_eq, not_false_eq_true, if_true]
        cases hf2 : find reg (s.virtualMetaTypeOf v) with
        | none => simp
        | some s2 =>
          simp only
          exact sendOrDowngrade_ne_outOfFuel reg hacyc fuel hfuel peerFlags _ s2 v
  · intro hreg fuel hfuel
    simp only [peerCompatibleQVariant]
    cases hf : find reg t with
    | none => exact ⟨_, rfl⟩
    | some s =>
      simp only
      by_cases hr : s.virtualMetaTypeOf v = t
      · simp only [hr, ne_eq, not_true_eq_false, if_false]
        exact sendOrDowngrade_terminates reg hreg hacyc fuel hfuel peerFlags t s hf v
      · simp only [hr, ne_eq, not_false_eq_true, if_true]
        cases hf2 : find reg (s.virtualMetaTypeOf v) with
        | none => exact ⟨_, rfl⟩
        | some s2 =>
          simp only
          exact sendOrDowngrade_terminates reg hreg hacyc fuel hfuel peerFlags _ s2 hf2 v
  · intro fuel q calls h
    simp only [peerCompatibleQVariantTraced] at h
    cases hf : find reg t with
    | none =>
      simp only [hf, Except.ok.injEq, Prod.mk.injEq] at h
      refine ⟨[], List.nodup_nil, fun x hx => absurd hx (List.not_mem_nil x), ?_, ?_⟩
      · rw [← h.2]; exact Nat.zero_le _
      · rw [← h.2]; exact Nat.zero_le _
    | some s =>
      have hactive : activeType reg t v = s.virtualMetaTypeOf v := by simp [activeType, hf]
      simp only [hf] at h
      by_cases hr : s.virtualMetaTypeOf v = t
      · simp only [hr, ne_eq, not_true_eq_false, if_false] at h
        cases hrec : sendOrDowngradeTraced reg fuel peerFlags t s v with
        | error err => simp [hrec] at h
        | ok r =>
          obtain ⟨q2, calls2⟩ := r
          simp only [hrec, Except.ok.injEq, Prod.mk.injEq] at h
          obtain ⟨lineage, hnd, hall, hcount⟩ :=
            sendOrDowngradeTraced_visited reg hacyc fuel peerFlags t s hf v q2 calls2 hrec
          have hall2 : ∀ x ∈ lineage, x ∈ keys reg ∧ inLineage reg (activeType reg t v) x := by
            rw [hactive, hr]; exact hall
          have hc : conversions calls ≤ lineage.length := by
            rw [← h.2, conversions_cons_resolver]; exact hcount
          exact ⟨lineage, hnd, hall2, hc, Nat.le_trans hc (hbound lineage hnd hall2)⟩
      · simp only [hr, ne_eq, not_false_eq_true, if_true] at h
        cases hf2 : find reg (s.virtualMetaTypeOf v) with
        | none =>
          simp only [hf2, Except.ok.injEq, Prod.mk.injEq] at h
          refine ⟨[], List.nodup_nil, fun x hx => absurd hx (List.not_mem_nil x), ?_, ?_⟩
          · rw [← h.2]; exact Nat.zero_le _
          · rw [← h.2]; exact Nat.zero_le _
        | some s2 =>
          simp only [hf2] at h
          cases hrec : sendOrDowngradeTraced reg fuel peerFlags (s.virtualMetaTypeOf v) s2 v with
          | error err => simp [hrec] at h
          | ok r =>
            obtain ⟨q2, calls2⟩ := r
            simp only [hrec, Except.ok.injEq, Prod.mk.injEq] at h
            obtain ⟨lineage, hnd, hall, hcount⟩ :=
              sendOrDowngradeTraced_visited reg hacyc fuel peerFlags _ s2 hf2 v q2 calls2 hrec
            have hall2 : ∀ x ∈ lineage,
                x ∈ keys reg ∧ inLineage reg (activeType reg t v) x := by
              rw [hactive]; exact hall
            have hc : conversions calls ≤ lineage.length := by
              rw [← h.2, conversions_cons_resolver]; exact hcount
            exact ⟨lineage, hnd, hall2, hc, Nat.le_trans hc (hbound lineage hnd hall2)⟩

theorem peerCompatibleQVariant_boundedDepth_witness :
    Acyclic chainRegistry ∧
      peerCompatibleQVariant chainRegistry 3 0 V3.id { metaType := V3.id, data := 10 } ≠
        Except.error CompatError.outOfFuel ∧
      peerCompatibleQVariantTraced chainRegistry 3 0 V3.id { metaType := V3.id, data := 10 } =
        Except.ok ({ userType := V1.id, data := 2 },
          [Call.resolver V3.id, Call.conversion V2.id, Call.conversion V1.id]) ∧
      ∃ lineage : List TypeId, lineage.Nodup ∧
        (∀ x ∈ lineage, x ∈ keys chainRegistry ∧
          inLineage chainRegistry
            (activeType chainRegistry V3.id { metaType := V3.id, data := 10 }) x) ∧
        conversions [Call.resolver V3.id, Call.conversion V2.id, Call.conversion V1.id] ≤
          lineage.length ∧
        conversions [Call.resolver V3.id, Call.conversion V2.id, Call.conversion V1.id] ≤
          chainRegistry.length :=
  ⟨chainRegistry_acyclic,
    (peerCompatibleQVariant_boundedDepth chainRegistry chainRegistry_acyclic 0 V3.id
      { metaType := V3.id, data := 10 }).1 3 (by decide),
    by decide,
    (peerCompatibleQVariant_boundedDepth chainRegistry chainRegistry_acyclic 0 V3.id
      { metaType := V3.id, data := 10 }).2.2 3 { userType := V1.id, data := 2 }
      [Call.resolver V3.id, Call.conversion V2.id, Call.conversion V1.id] (by decide)⟩

end ObjectCompat

namespace BufferViewConfig

/-! ## Lemmas on the list operations -/

theorem insertAt_perm {β : Type} (l : List β) (n : Nat) (x : β) :
    (QList.insertAt l n x).Perm (x :: l) := by
  induction l generalizing n with
  | nil =>
    cases n with
    | zero => exact List.Perm.refl _
    | succ m => exact List.Perm.refl _
  | cons y ys ih =>
    cases n with
    | zero => exact List.Perm.refl _
    | succ m =>
      have h1 : QList.insertAt (y :: ys) (m + 1) x = y :: QList.insertAt ys m x := rfl
      rw [h1]
      exact ((ih m).cons y).trans (List.Perm.swap x y ys)

theorem insert_perm {β : Type} (l : List β) (i : Int) (x : β) :
    (QList.insert l i x).Perm (x :: l) := by
  unfold QList.insert
  split
  · exact List.Perm.refl _
  · exact insertAt_perm l i.toNat x

theorem nodup_insertAt {β : Type} (l : List β) (n : Nat) (x : β) (hnd : l.Nodup)
    (hx : x ∉ l) : (QList.insertAt l n x).Nodup :=
  (insertAt_perm l n x).nodup_iff.mpr (List.nodup_cons.mpr ⟨hx, hnd⟩)

theorem nodup_insert {β : Type} (l : List β) (i : Int) (x : β) (hnd : l.Nodup)
    (hx : x ∉ l) : (QList.insert l i x).Nodup :=
  (insert_perm l i x).nodup_iff.mpr (List.nodup_cons.mpr ⟨hx, hnd⟩)

theorem indexOf_of_mem (l : List BufferId) (x : BufferId) (hx : x ∈ l) :
    QList.indexOf l x = ((List.indexOf x l : Nat) : Int) ∧ List.indexOf x l < l.length := by
  constructor
  · simp [QList.indexOf, hx]
  · exact List.indexOf_lt_length.mpr hx

theorem removeAt_indexOf (l : List BufferId) (x : BufferId) (hx : x ∈ l) :
    QList.removeAt l (QList.indexOf l x) = l.erase x := by
  obtain ⟨h1, h2⟩ := indexOf_of_mem l x hx
  rw [h1]
  have hcond : (0 : Int) ≤ ((List.indexOf x l : Nat) : Int) ∧
      ((List.indexOf x l : Nat) : Int) < (l.length : Int) :=
    ⟨Int.ofNat_nonneg _, Int.ofNat_lt.mpr h2⟩
  simp only [QList.removeAt, hcond, and_self, if_true, Int.toNat_ofNat]
  exact List.eraseIdx_indexOf_eq_erase x l

theorem move_indexOf (l : List BufferId) (x : BufferId) (pos : Int) (hx : x ∈ l)
    (h0 : 0 ≤ pos) (h1 : pos < l.length) :
    QList.move l (QList.indexOf l x) pos = some (QList.insertAt (l.erase x) pos.toNat x) := by
  obtain ⟨hi, hlt⟩ := indexOf_of_mem l x hx
  rw [hi]
  have hcond : (0 : Int) ≤ ((List.indexOf x l : Nat) : Int) ∧
      ((List.indexOf x l : Nat) : Int) < (l.length : Int) ∧ 0 ≤ pos ∧ pos < (l.length : Int) :=
    ⟨Int.ofNat_nonneg _, Int.ofNat_lt.mpr hlt, h0, h1⟩
  simp only [QList.move, hcond, and_self, if_true, Int.toNat_ofNat, List.indexOf_get? hx,
    List.eraseIdx_indexOf_eq_erase]

theorem foldl_append_singleton {β γ : Type} (f : β → γ) (l : List β) (init : List γ) :
    l.foldl (fun acc b => acc ++ [f b]) init = init ++ l.map f := by
  induction l generalizing init with
  | nil => simp
  | cons b rest ih =>
    simp only [List.foldl_cons, List.map_cons]
    rw [ih]
    simp

theorem value_qVariantFromValue (m : BufferIdMetaType) (bufferId : BufferId) :
    value m (qVariantFromValue m bufferId) = bufferId := by
  simp [value, qVariantFromValue]

/-! ## The claims on the buffer list -/

/-- C18. No-duplicates invariant of the buffer list: if `_buffers` has no duplicate, then it
has none after `addBuffer` (at any position, so for `0 <= pos <= size`), after `moveBuffer` to
a position with `0 <= pos < size`, which then succeeds, and after `removeBuffer`; `addBuffer`
of an id that is present, and `moveBuffer` and `removeBuffer` of an id that is absent, leave
the whole object as it was. -/
theorem buffers_nodup_preserved (cfg : BufferViewConfig) (bufferId : BufferId) (pos : Int)
    (hnd : cfg._buffers.Nodup) :
    (0 ≤ pos → pos ≤ cfg._buffers.length → (addBuffer cfg bufferId pos)._buffers.Nodup) ∧
      (0 ≤ pos → pos < cfg._buffers.length →
        ∃ moved, moveBuffer cfg bufferId pos = some moved ∧ moved._buffers.Nodup) ∧
      (removeBuffer cfg bufferId)._buffers.Nodup ∧
      (bufferId ∈ cfg._buffers → addBuffer cfg bufferId pos = cfg) ∧
      (bufferId ∉ cfg._buffers →
        moveBuffer cfg bufferId pos = some cfg ∧ removeBuffer cfg bufferId = cfg) := by
  refine ⟨?_, ?_, ?_, ?_, ?_⟩
  · intro _ _
    by_cases hmem : bufferId ∈ cfg._buffers
    · simp only [addBuffer, QList.contains, hmem, decide_True, if_true]
      exact hnd
    · simp only [addBuffer, QList.contains, hmem, decide_False, Bool.false_eq_true, if_false]
      exact nodup_insert cfg._buffers pos bufferId hnd hmem
  · intro h0 h1
    by_cases hmem : bufferId ∈ cfg._buffers
    · refine ⟨{ cfg with
          _buffers := QList.insertAt (cfg._buffers.erase bufferId) pos.toNat bufferId
          emitted := cfg.emitted ++ [BufferViewConfigSignal.bufferMoved bufferId pos] }, ?_, ?_⟩
      · simp only [moveBuffer, QList.contains, hmem, decide_True, not_true_eq_false, if_false,
          move_indexOf cfg._buffers bufferId pos hmem h0 h1]
      · exact nodup_insertAt _ _ _ (hnd.erase bufferId) hnd.not_mem_erase
    · refine ⟨cfg, ?_, hnd⟩
      simp [moveBuffer, QList.contains, hmem]
  · by_cases hmem : bufferId ∈ cfg._buffers
    · simp only [removeBuffer, QList.contains, hmem, decide_True, not_true_eq_false, if_false,
        removeAt_indexOf cfg._buffers bufferId hmem]
      exact hnd.erase bufferId
    · simp only [removeBuffer, QList.contains, hmem, decide_False, Bool.false_eq_true,
        not_false_eq_true, if_true]
      exact hnd
  · intro hmem
    simp [addBuffer, QList.contains, hmem]
  · intro hmem
    constructor
    · simp [moveBuffer, QList.contains, hmem]
    · simp [removeBuffer, QList.contains, hmem]

theorem buffers_nodup_preserved_witness :
    sample._buffers.Nodup ∧
      (addBuffer sample 8 1)._buffers = [5, 8, 7, 9] ∧ (addBuffer sample 8 1)._buffers.Nodup ∧
      (∃ moved, moveBuffer sample 9 0 = some moved ∧ moved._buffers.Nodup) ∧
      (removeBuffer sample 7)._buffers.Nodup ∧
      addBuffer sample 7 1 = sample ∧
      moveBuffer sample 8 1 = some sample ∧ removeBuffer sample 8 = sample :=
  ⟨by decide, by decide,
    (buffers_nodup_preserved sample 8 1 (by decide)).1 (by decide) (by decide),
    (buffers_nodup_preserved sample 9 0 (by decide)).2.1 (by decide) (by decide),
    (buffers_nodup_preserved sample 7 0 (by decide)).2.2.1,
    (buffers_nodup_preserved sample 7 1 (by decide)).2.2.2.1 (by decide),
    (buffers_nodup_preserved sample 8 1 (by decide)).2.2.2.2 (by decide)⟩

/-- C19. Buffer-list round trip: for every state, `initSetBufferList` applied to the result
of `initBufferList` leaves `_buffers` as it was; and for every list `L` of buffer ids,
`initSetBufferList(L)` stores `L`, and `initBufferList` then returns the ids of `L` in the
same order, each as a variant of a `BufferId`. -/
theorem bufferList_roundTrip (m : BufferIdMetaType) (cfg : BufferViewConfig)
    (L : List BufferId) :
    (initSetBufferList m cfg (initBufferList m cfg))._buffers = cfg._buffers ∧
      (initSetBufferListOfIds cfg L)._buffers = L ∧
      initBufferList m (initSetBufferListOfIds cfg L) = L.map (qVariantFromValue m) ∧
      (initBufferList m (initSetBufferListOfIds cfg L)).map (value m) = L := by
  have hids : (initSetBufferListOfIds cfg L)._buffers = L := by
    simp only [initSetBufferListOfIds]
    rw [foldl_append_singleton (fun b => b) L []]
    simp
  have hlist : ∀ c : BufferViewConfig,
      initBufferList m c = c._buffers.map (qVariantFromValue m) := by
    intro c
    simp only [initBufferList]
    rw [foldl_append_singleton (qVariantFromValue m) c._buffers []]
    simp
  have hval : ∀ l : List BufferId, (l.map (qVariantFromValue m)).map (value m) = l := by
    intro l
    induction l with
    | nil => rfl
    | cons b rest ih =>
      simp only [List.map_cons, value_qVariantFromValue, List.map_map] at ih ⊢
      rw [ih]
  refine ⟨?_, hids, ?_, ?_⟩
  · simp only [initSetBufferList]
    rw [foldl_append_singleton (value m) (initBufferList m cfg) [], hlist cfg, hval]
    simp
  · rw [hlist, hids]
  · rw [hlist, hids, hval]

theorem bufferList_roundTrip_witness :
    (initSetBufferList sampleMetaType sample
        (initBufferList sampleMetaType sample))._buffers = [5, 7, 9] ∧
      (initBufferList sampleMetaType (initSetBufferListOfIds sample [4, 2, 4])).map
        (value sampleMetaType) = [4, 2, 4] :=
  ⟨(bufferList_roundTrip sampleMetaType sample []).1,
    (bufferList_roundTrip sampleMetaType sample [4, 2, 4]).2.2.2⟩

end BufferViewConfig
